import Mathlib

/-!
# stats/aggregation.go

A shallow embedding of the aggregation descriptors of package `stats`
(`AggregationCount`, `AggregationDistribution`, their constructors and their
accumulator factories) over an explicit model of the Go memory they touch:
backing arrays of `[]float64`, slice headers, and heap-allocated structs.
-/

set_option autoImplicit false

namespace stats

/-! ## Memory model -/

/-- Go `float64`, identified by its IEEE-754 binary64 bit pattern. The code
only allocates (zero value, pattern 0) and copies such values; it never does
arithmetic on them. -/
abbrev float64 := Fin 18446744073709551616

/-- A Go slice header `[]float64`: the backing array it points into, the
offset of its first element there, its length and its capacity. A nil slice
is a header of length and capacity 0. -/
structure Slice where
  arr : Nat
  off : Nat
  len : Nat
  cap : Nat
deriving DecidableEq, Repr

/-- The struct `AggregationDistribution`: its only field is the slice header
`bounds`. -/
structure AggregationDistribution where
  bounds : Slice
deriving DecidableEq, Repr

/-- The struct `AggregationCount struct{}`: no fields. -/
structure AggregationCount where
deriving DecidableEq, Repr

/-- Modelled from the spec: the count accumulator `AggregationCountValue`
(its declaration is not in aggregation.go), "a count accumulator initialized
to 0" by its constructor; `count` is its int64 counter. -/
structure AggregationCountValue where
  count : Int
deriving DecidableEq, Repr

/-- Modelled from the spec: the distribution accumulator
`AggregationDistributionValue` (its declaration is not in aggregation.go): the
bounds it was given, `len(bounds)+1` bucket counters (a slice of int64, here the
address of its backing array) and the count/sum/min/max fields. -/
structure AggregationDistributionValue where
  countPerBucket : Nat
  bounds : Slice
  count : Int
  sum : float64
  min : float64
  max : float64
deriving DecidableEq, Repr

/-- The part of the Go heap the package touches, one typed store per kind of
object; an address is an index into the store, allocation appends. -/
structure Mem where
  floats : List (List float64)
  ints : List (List Int)
  dists : List AggregationDistribution
  countVals : List AggregationCountValue
  distVals : List AggregationDistributionValue
deriving DecidableEq, Repr

/-- The backing array a slice header points into (empty for a nil slice). -/
def Slice.backing (s : Slice) (m : Mem) : List float64 :=
  m.floats.getD s.arr []

/-- A slice header is well-formed in a memory: its window lies inside its
backing array. -/
def Slice.Valid (s : Slice) (m : Mem) : Prop :=
  s.len ≤ s.cap ∧ s.off + s.cap ≤ (s.backing m).length

instance (s : Slice) (m : Mem) : Decidable (s.Valid m) := by
  unfold Slice.Valid; infer_instance

/-- The contents of a slice: `s[0], ..., s[len(s)-1]`. -/
def Slice.elems (s : Slice) (m : Mem) : List float64 :=
  ((s.backing m).drop s.off).take s.len

/-- The Go expression `s[i]`: panics (none) when `i` is out of range. -/
def Slice.index (s : Slice) (i : Nat) (m : Mem) : Option float64 :=
  if i < s.len then (s.backing m)[s.off + i]? else none

/-- The Go statement `s[i] = v`: panics (none) when `i` is out of range. -/
def Slice.store (s : Slice) (i : Nat) (v : float64) (m : Mem) : Option Mem :=
  if i < s.len then
    some { m with floats := m.floats.set s.arr ((s.backing m).set (s.off + i) v) }
  else none

/-- The Go builtin `make([]float64, n)`: a fresh backing array of `n` zero
values and a header over all of it. -/
def make (n : Nat) (m : Mem) : Slice × Mem :=
  (⟨m.floats.length, 0, n, n⟩, { m with floats := m.floats ++ [List.replicate n 0] })

/-- Overwrite the cells of `a` from position `off` on with `vals`. -/
def splice (a : List float64) (off : Nat) (vals : List float64) : List float64 :=
  a.take off ++ vals ++ a.drop (off + vals.length)

/-- The Go builtin `copy(dst, src)`: copies `min(len(dst), len(src))` elements
from `src` to `dst` and returns that number. -/
def copy (dst src : Slice) (m : Mem) : Nat × Mem :=
  let n := min dst.len src.len
  (n, { m with floats := m.floats.set dst.arr (splice (dst.backing m) dst.off ((src.elems m).take n)) })

/-- The float64 value 0 (bit pattern 0). -/
def float64.zero : float64 := 0

/-- The float64 value +infinity. -/
def float64.posInf : float64 := 0x7FF0000000000000

/-- The float64 value -infinity. -/
def float64.negInf : float64 := 0xFFF0000000000000

/-- The float64 value 1.0. -/
def float64.one : float64 := 0x3FF0000000000000

/-- The float64 value 2.0. -/
def float64.two : float64 := 0x4000000000000000

/-- The float64 value 3.0. -/
def float64.three : float64 := 0x4008000000000000

/-! ## The accumulators the factories build -/

/-- Modelled from the spec: the helper `newAggregationCountValue(v)`, called by
aggregation.go and defined elsewhere in the package: it allocates a new count
accumulator initialized to `v` and returns its address. -/
def newAggregationCountValue (v : Int) (m : Mem) : Nat × Mem :=
  (m.countVals.length, { m with countVals := m.countVals ++ [⟨v⟩] })

/-- Modelled from the spec: the helper `newAggregationDistributionValue(bounds)`,
called by aggregation.go and defined elsewhere in the package: it allocates a
new distribution accumulator "initialized with the variant's bounds" (the
slice it is given, kept as a reference), "with len(bounds)+1 bucket counters
zero-initialized", count and sum zero, "min = +inf, max = -inf", and returns
its address. It writes to no object that existed before. This is the reading
"an immutable reference to the stored bounds"; the reading "a copy of the
stored bounds" is `newAggregationDistributionValueCopy` below. -/
def newAggregationDistributionValue (bounds : Slice) (m : Mem) : Nat × Mem :=
  (m.distVals.length,
    { m with
      ints := m.ints ++ [List.replicate (bounds.len + 1) 0],
      distVals := m.distVals ++
        [⟨m.ints.length, bounds, 0, float64.zero, float64.posInf, float64.negInf⟩] })

/-- What an observer reads from a distribution accumulator: the contents of
its bounds, its bucket counters and its scalar fields. -/
structure DistView where
  bounds : List float64
  buckets : List Int
  count : Int
  sum : float64
  min : float64
  max : float64
deriving DecidableEq, Repr

/-- Read the distribution accumulator at address `v` (none when `v` is not an
allocated accumulator). -/
def viewDist (v : Nat) (m : Mem) : Option DistView :=
  (m.distVals[v]?).map fun d =>
    ⟨d.bounds.elems m, m.ints.getD d.countPerBucket [], d.count, d.sum, d.min, d.max⟩

/-- The count held by the count accumulator at address `v`. -/
def viewCount (v : Nat) (m : Mem) : Option Int :=
  (m.countVals[v]?).map fun c => c.count

/-- A write to bucket counter `i` of the accumulator at `v`:
`v.countPerBucket[i] = c` (none on a dangling `v` or an index out of range). -/
def setBucket (v i : Nat) (c : Int) (m : Mem) : Option Mem :=
  match m.distVals[v]? with
  | none => none
  | some d =>
    if i < (m.ints.getD d.countPerBucket []).length then
      some { m with ints := m.ints.set d.countPerBucket ((m.ints.getD d.countPerBucket []).set i c) }
    else none

/-- A write to the scalar fields of the accumulator at `v`: `v.count`, `v.sum`,
`v.min`, `v.max` (none on a dangling `v`). -/
def setFields (v : Nat) (count : Int) (sum min max : float64) (m : Mem) : Option Mem :=
  match m.distVals[v]? with
  | none => none
  | some d =>
    some { m with distVals := m.distVals.set v ⟨d.countPerBucket, d.bounds, count, sum, min, max⟩ }

/-- A write through the bounds the accumulator at `v` was given:
`v.bounds[i] = x` (none on a dangling `v` or an index out of range). -/
def setGivenBound (v i : Nat) (x : float64) (m : Mem) : Option Mem :=
  match m.distVals[v]? with
  | none => none
  | some d => d.bounds.store i x m

/-! ## aggregation.go -/

/-- The Go function `NewAggregationCount`: `return &AggregationCount{}`. -/
def NewAggregationCount : AggregationCount := {}

/-- The Go method `(*AggregationCount).isAggregation`. -/
def AggregationCount.isAggregation (_a : AggregationCount) : Bool := true

/-- The Go function `NewAggregationDistribution`: allocate `copyBounds` with
`make`, `copy` the argument into it, allocate the struct holding `copyBounds`
and return its address. -/
def NewAggregationDistribution (bounds : Slice) (m : Mem) : Nat × Mem :=
  let (copyBounds, m1) := make bounds.len m
  let (_, m2) := copy copyBounds bounds m1
  (m2.dists.length, { m2 with dists := m2.dists ++ [⟨copyBounds⟩] })

/-- The Go method `(*AggregationDistribution).isAggregation`. -/
def AggregationDistribution.isAggregation (_a : Nat) : Bool := true

/-- The contents of the bounds stored in the aggregation at address `a`
(none when `a` is not an allocated aggregation). -/
def storedBounds (a : Nat) (m : Mem) : Option (List float64) :=
  (m.dists[a]?).map (fun d => d.bounds.elems m)

/-- The Go method `(*AggregationCount).aggregationValueConstructor`: the
closure `func() AggregationValue { return newAggregationCountValue(0) }`. -/
def AggregationCount.aggregationValueConstructor (_a : AggregationCount) :
    Mem → Option (Nat × Mem) :=
  fun m => some (newAggregationCountValue 0 m)

/-- The Go expression `a.bounds` for a pointer `a`: a nil or dangling pointer
dereference panics (none). -/
def AggregationDistribution.boundsField (a : Nat) (m : Mem) : Option Slice :=
  (m.dists[a]?).map fun d => d.bounds

/-- The Go method `(*AggregationDistribution).aggregationValueConstructor`:
the closure `func() AggregationValue { return
newAggregationDistributionValue(a.bounds) }`. The closure captures the pointer
`a`; `a.bounds` is read at each invocation. -/
def AggregationDistribution.aggregationValueConstructor (a : Nat) :
    Mem → Option (Nat × Mem) :=
  fun m =>
    match AggregationDistribution.boundsField a m with
    | none => none
    | some s => some (newAggregationDistributionValue s m)

/-- The interface `Aggregation`: its two methods are unexported, so the types
implementing it are those of the package, `*AggregationCount` and
`*AggregationDistribution`. -/
inductive Aggregation where
  | count (a : AggregationCount)
  | distribution (a : Nat)
deriving DecidableEq, Repr

/-- Dynamic dispatch of `isAggregation` on an `Aggregation`. -/
def Aggregation.isAggregation : Aggregation → Bool
  | .count a => a.isAggregation
  | .distribution a => AggregationDistribution.isAggregation a

/-- The interface `AggregationValue` the factories return: a pointer to a
count accumulator or to a distribution accumulator. -/
inductive AggregationValue where
  | count (v : Nat)
  | distribution (v : Nat)
deriving DecidableEq, Repr

/-- Dynamic dispatch of `aggregationValueConstructor` on an `Aggregation`. -/
def Aggregation.aggregationValueConstructor :
    Aggregation → Mem → Option (AggregationValue × Mem)
  | .count a => fun m =>
    (a.aggregationValueConstructor m).map fun r => (AggregationValue.count r.1, r.2)
  | .distribution a => fun m =>
    (AggregationDistribution.aggregationValueConstructor a m).map fun r =>
      (AggregationValue.distribution r.1, r.2)

/-- Invoke a factory `n` times in a row, collecting the accumulators it
returns (none when an invocation panics). -/
def invocations (f : Mem → Option (Nat × Mem)) : Nat → Mem → Option (List Nat × Mem)
  | 0, m => some ([], m)
  | n + 1, m =>
    match f m with
    | none => none
    | some (v, m1) =>
      match invocations f n m1 with
      | none => none
      | some (vs, m2) => some (v :: vs, m2)

/-- Memory `m2` is `m` after allocations of accumulators only: the float
arrays, the aggregations and the count accumulators are the same, and the int
arrays and distribution accumulators of `m` are still there, unchanged, new
ones coming after them. -/
def Mem.Extends (m m2 : Mem) : Prop :=
  m2.floats = m.floats ∧ m2.dists = m.dists ∧ m2.countVals = m.countVals ∧
    (∃ xs, m2.ints = m.ints ++ xs) ∧ (∃ ys, m2.distVals = m.distVals ++ ys)

/-- The accumulator at address `v` is as `newAggregationDistributionValue(s)`
leaves it: it holds the header `s`, untouched zero counters, `len(s)+1` of
them, and the initial scalar fields. -/
def FreshAt (v : Nat) (s : Slice) (m : Mem) : Prop :=
  ∃ c, m.distVals[v]? = some ⟨c, s, 0, float64.zero, float64.posInf, float64.negInf⟩ ∧
    m.ints[c]? = some (List.replicate (s.len + 1) 0)

/-! ## The two seedings of a distribution accumulator -/

/-- Modelled from the spec: the two ways the helper
`newAggregationDistributionValue`, absent from aggregation.go, may take the
bounds it is given: the accumulator is "seeded with a copy of (or an immutable
reference to) the stored bounds". -/
inductive Seeding where
  | reference
  | copy
deriving DecidableEq, Repr

/-- Modelled from the spec: the helper `newAggregationDistributionValue(bounds)`
under the reading "seeded with a copy of the stored bounds": it allocates a
slice of its own with `make`, copies the bounds it is given into it with
`copy`, and allocates a new accumulator holding that slice, `len(bounds)+1`
zero bucket counters, count and sum zero, "min = +inf, max = -inf". -/
def newAggregationDistributionValueCopy (bounds : Slice) (m : Mem) : Nat × Mem :=
  let (own, m1) := make bounds.len m
  let (_, m2) := copy own bounds m1
  (m2.distVals.length,
    { m2 with
      ints := m2.ints ++ [List.replicate (bounds.len + 1) 0],
      distVals := m2.distVals ++
        [⟨m2.ints.length, own, 0, float64.zero, float64.posInf, float64.negInf⟩] })

/-- Modelled from the spec: the helper under either seeding; under
`reference` it is `newAggregationDistributionValue` above. -/
def newAggregationDistributionValueAs : Seeding → Slice → Mem → Nat × Mem
  | .reference => newAggregationDistributionValue
  | .copy => newAggregationDistributionValueCopy

/-- The closure of `(*AggregationDistribution).aggregationValueConstructor`,
`func() AggregationValue { return newAggregationDistributionValue(a.bounds) }`,
with the helper under a given seeding. -/
def AggregationDistribution.aggregationValueConstructorAs (mode : Seeding) (a : Nat) :
    Mem → Option (Nat × Mem) :=
  fun m =>
    match AggregationDistribution.boundsField a m with
    | none => none
    | some s => some (newAggregationDistributionValueAs mode s m)

/-- A mutation of a distribution accumulator: a write to one bucket counter,
to the scalar fields, or to one element of its bounds. -/
inductive Write where
  | bucket (i : Nat) (c : Int)
  | fields (count : Int) (sum min max : float64)
  | bound (i : Nat) (x : float64)
deriving DecidableEq, Repr

/-- The write goes to the bounds. -/
def Write.isBound : Write → Bool
  | .bound _ _ => true
  | _ => false

/-- The writes an accumulator admits: under `reference` seeding its bounds are
an immutable reference, so it has no write to them; under `copy` seeding every
write is admitted. -/
def Write.allowed (mode : Seeding) (w : Write) : Bool :=
  match mode with
  | .reference => !w.isBound
  | .copy => true

/-- Perform a write on the accumulator at address `v`. -/
def Write.apply : Write → Nat → Mem → Option Mem
  | .bucket i c, v, m => setBucket v i c m
  | .fields count sum min max, v, m => setFields v count sum min max m
  | .bound i x, v, m => setGivenBound v i x m

/-- Perform a sequence of writes on the accumulator at address `v` (none when
one of them panics). -/
def applyWrites : List Write → Nat → Mem → Option Mem
  | [], _, m => some m
  | w :: ws, v, m =>
    match w.apply v m with
    | none => none
    | some m1 => applyWrites ws v m1

/-- The two slices the accumulator at address `v` holds: the address of its
counter array and its bounds header. -/
def heldSlices (v : Nat) (m : Mem) : Option (Nat × Slice) :=
  (m.distVals[v]?).map fun d => (d.countPerBucket, d.bounds)

/-- A write to the counter of the count accumulator at `v` (none on a
dangling `v`). -/
def setCount (v : Nat) (c : Int) (m : Mem) : Option Mem :=
  match m.countVals[v]? with
  | none => none
  | some _ => some { m with countVals := m.countVals.set v ⟨c⟩ }

/-- Perform a sequence of writes on the counter of the count accumulator at
address `v` (none when one of them panics). -/
def applyCounts : List Int → Nat → Mem → Option Mem
  | [], _, m => some m
  | c :: cs, v, m =>
    match setCount v c m with
    | none => none
    | some m1 => applyCounts cs v m1

/-- Memory `m2` differs from `m` at most in the accumulator at `v`: in its
scalar fields, in its counter array `c` and in the float array `f` (if any).
The accumulator still holds the same two slices. -/
def Mem.SameExcept (v c : Nat) (f : Option Nat) (m m2 : Mem) : Prop :=
  m2.dists = m.dists ∧ m2.countVals = m.countVals ∧
    (∀ w, w ≠ v → m2.distVals[w]? = m.distVals[w]?) ∧
    heldSlices v m2 = heldSlices v m ∧
    (∀ j, j ≠ c → m2.ints.getD j [] = m.ints.getD j []) ∧
    (∀ j, f ≠ some j → m2.floats.getD j [] = m.floats.getD j [])

/-! ## The documented bucket rule -/

section Buckets

variable {α : Type} [LinearOrder α]

/-- The doc comment: "This defines len(Bounds)+1 buckets." -/
def numBuckets (bounds : List α) : Nat := bounds.length + 1

/-- The value `x` is below the bound `bounds[k]`. -/
def ltBound (x : α) (bounds : List α) (k : Nat) : Prop :=
  match bounds[k]? with
  | some b => x < b
  | none => False

/-- The value `x` is at or above the bound `bounds[k]`. -/
def geBound (x : α) (bounds : List α) (k : Nat) : Prop :=
  match bounds[k]? with
  | some b => b ≤ x
  | none => False

instance (x : α) (bounds : List α) (k : Nat) : Decidable (ltBound x bounds k) := by
  unfold ltBound; split <;> infer_instance

instance (x : α) (bounds : List α) (k : Nat) : Decidable (geBound x bounds k) := by
  unfold geBound; split <;> infer_instance

/-- The doc comment's rule for `len(Bounds) >= 2`: the boundaries for bucket
index i are `[-infinity, bounds[i])` for `i = 0`, `[bounds[i-1], bounds[i])`
for `0 < i < len(Bounds)`, `[bounds[i-1], +infinity)` for `i = len(Bounds)`. -/
def inBucketGe2 (bounds : List α) (i : Nat) (x : α) : Prop :=
  if i = 0 then ltBound x bounds i
  else if i < bounds.length then geBound x bounds (i - 1) ∧ ltBound x bounds i
  else if i = bounds.length then geBound x bounds (i - 1)
  else False

instance (bounds : List α) (i : Nat) (x : α) : Decidable (inBucketGe2 bounds i x) := by
  unfold inBucketGe2; infer_instance

/-- The doc comment's rule in full: for `len(Bounds) == 0` "a single bucket
with boundaries (-infinity, +infinity)"; for `len(Bounds) == 1` "that single
element is the common boundary of the overflow and underflow buckets"; for
`len(Bounds) >= 2` the rule `inBucketGe2`. -/
def inBucket (bounds : List α) (i : Nat) (x : α) : Prop :=
  match bounds with
  | [] => i = 0
  | [b] => (i = 0 ∧ x < b) ∨ (i = 1 ∧ b ≤ x)
  | _ :: _ :: _ => inBucketGe2 bounds i x

instance (bounds : List α) (i : Nat) (x : α) : Decidable (inBucket bounds i x) := by
  unfold inBucket; split <;> infer_instance

/-- The buckets of finite width: those whose two edges are both bounds,
`[bounds[i-1], bounds[i])` for `0 < i < len(Bounds)`. -/
def finiteBuckets (bounds : List α) : List Nat :=
  (List.range (numBuckets bounds)).filter fun i => 0 < i ∧ i < bounds.length

end Buckets

/-! ## Concrete memories used to evaluate the definitions -/

/-- A caller's memory holding one backing array, `[3.0, 1.0, 1.0, 2.0]`:
unsorted and with a duplicate. -/
def demoMem : Mem :=
  ⟨[[float64.three, float64.one, float64.one, float64.two]], [], [], [], []⟩

/-- The caller's slice over the first three cells of that array
(length 3, capacity 4): `[3.0, 1.0, 1.0]`. -/
def demoBounds : Slice := ⟨0, 0, 3, 4⟩

/-- A memory with nothing allocated. -/
def emptyMem : Mem := ⟨[], [], [], [], []⟩

/-- The nil slice: `b = []`. -/
def nilSlice : Slice := ⟨0, 0, 0, 0⟩

/-- A caller's memory holding the array `[0.0]`. -/
def zeroMem : Mem := ⟨[[float64.zero]], [], [], [], []⟩

/-- The caller's slice `[0.0]`. -/
def zeroBounds : Slice := ⟨0, 0, 1, 1⟩

/-- A caller's memory holding the array `[1.0, 2.0, 3.0]`. -/
def threeMem : Mem := ⟨[[float64.one, float64.two, float64.three]], [], [], [], []⟩

/-- The caller's slice `[1.0, 2.0, 3.0]`. -/
def threeBounds : Slice := ⟨0, 0, 3, 3⟩

/-- A caller's memory holding the array `[1.0, 2.0]`. -/
def cexMem : Mem := ⟨[[float64.one, float64.two]], [], [], [], []⟩

/-- The caller's slice `[1.0, 2.0]`. -/
def cexBounds : Slice := ⟨0, 0, 2, 2⟩

/-- The aggregation `NewAggregationDistribution([1.0, 2.0])` and the memory
after its construction. -/
def cexAgg : Nat × Mem := NewAggregationDistribution cexBounds cexMem

/-- A slice over cell 1 of the array of `demoMem`: `[1.0]`. -/
def detBounds1 : Slice := ⟨0, 1, 1, 1⟩

/-- A slice over cell 0 of the array of `threeMem`, with spare capacity:
`[1.0]`. -/
def detBounds2 : Slice := ⟨0, 0, 1, 3⟩

/-- A slice over cell 0 of the array of `demoMem`, with spare capacity:
`[3.0]`. -/
def detBounds3 : Slice := ⟨0, 0, 1, 4⟩

/-- The memory after `NewAggregationDistribution([1.0, 2.0, 3.0])`, a write
`b[0] = 3.0` by the caller, and the construction of a second aggregation from
the caller's one-element slice (then `[3.0]`): aggregation 0 stores
`[1.0, 2.0, 3.0]`, aggregation 1 stores `[3.0]`. -/
def laterThree : Mem :=
  match threeBounds.store 0 float64.three (NewAggregationDistribution threeBounds threeMem).2 with
  | none => emptyMem
  | some m => (NewAggregationDistribution detBounds2 m).2

/-- The memory after `NewAggregationDistribution([0.0])` and the construction
of a second aggregation from the same slice. -/
def laterZero : Mem :=
  (NewAggregationDistribution zeroBounds (NewAggregationDistribution zeroBounds zeroMem).2).2

/-- The memory after `NewAggregationDistribution([])` and one invocation of
the factory of that aggregation. -/
def laterNil : Mem :=
  (newAggregationDistributionValueAs Seeding.copy nilSlice
    (NewAggregationDistribution nilSlice emptyMem).2).2

/-- The `bounds` header of the aggregation `cexAgg`. -/
def cexHeader : Slice := ⟨1, 0, 2, 2⟩

/-- A first invocation of the factory of `cexAgg` under a seeding: the
accumulator returned and the memory after. -/
def firstAcc (mode : Seeding) : Nat × Mem :=
  newAggregationDistributionValueAs mode cexHeader cexAgg.2

/-- A later memory: after that first invocation, a second aggregation is
built from the caller's slice `[2.0]` and bucket counter 0 of the first
accumulator is set to 7. -/
def laterAcc (mode : Seeding) : Mem :=
  match setBucket (firstAcc mode).1 0 7
      (NewAggregationDistribution detBounds1 (firstAcc mode).2).2 with
  | none => emptyMem
  | some m => m

/-- A sequence of writes: a bucket counter and the scalar fields. -/
def someWrites : List Write :=
  [Write.bucket 1 5, Write.fields 3 float64.one float64.one float64.two]

/-- A sequence of writes that also goes to the bounds. -/
def someBoundWrites : List Write :=
  [Write.bound 0 float64.three, Write.bucket 1 5]

/-! ## Lists as stores -/

theorem getD_append_lt {β : Type} (l : List (List β)) (x : List β) (i : Nat) (h : i < l.length) :
    (l ++ [x]).getD i [] = l.getD i [] := by
  simp [List.getD_eq_getElem?_getD, List.getElem?_append_left h]

theorem getD_append_length {β : Type} (l : List (List β)) (x : List β) :
    (l ++ [x]).getD l.length [] = x := by
  simp [List.getD_eq_getElem?_getD]

theorem getD_length_le {β : Type} (l : List (List β)) (i : Nat) (h : l.length ≤ i) :
    l.getD i [] = [] := by
  simp [List.getD_eq_getElem?_getD, List.getElem?_eq_none h]

theorem getD_set_same {β : Type} (l : List (List β)) (i : Nat) (x : List β) (h : i < l.length) :
    (l.set i x).getD i [] = x := by
  simp [List.getD_eq_getElem?_getD, h]

theorem getD_set_other {β : Type} (l : List (List β)) (i j : Nat) (x : List β) (h : i ≠ j) :
    (l.set i x).getD j [] = l.getD j [] := by
  simp [List.getD_eq_getElem?_getD, List.getElem?_set_ne h]

theorem set_append_length {β : Type} (l : List β) (x y : β) :
    (l ++ [x]).set l.length y = l ++ [y] := by
  induction l with
  | nil => rfl
  | cons a t ih => simp [ih]

theorem set_append_lt {β : Type} (l : List β) (x y : β) (i : Nat) (h : i < l.length) :
    (l ++ [x]).set i y = l.set i y ++ [x] := by
  simp [List.set_append, h]

theorem window_set (a : List float64) (off len i : Nat) (v : float64) :
    ((a.set (off + i) v).drop off).take len = ((a.drop off).take len).set i v := by
  rw [← List.set_drop, List.set_take]

/-! ## Slices -/

theorem Slice.elems_length (s : Slice) (m : Mem) (h : s.Valid m) :
    (s.elems m).length = s.len := by
  unfold Slice.elems
  obtain ⟨h1, h2⟩ := h
  simp only [List.length_take, List.length_drop]
  omega

theorem Slice.arr_lt_of_valid (s : Slice) (m : Mem) (h : s.Valid m) (hl : 0 < s.len) :
    s.arr < m.floats.length := by
  by_contra hc
  obtain ⟨h1, h2⟩ := h
  have : s.backing m = [] := getD_length_le _ _ (by omega)
  rw [this] at h2
  simp at h2
  omega

theorem Slice.elems_alloc (s : Slice) (m : Mem) (x : List float64) (h : s.Valid m) :
    ((m.floats ++ [x]).getD s.arr [] |>.drop s.off |>.take s.len) = s.elems m := by
  unfold Slice.elems Slice.backing
  rcases Nat.eq_zero_or_pos s.len with h0 | hpos
  · simp [h0]
  · rw [getD_append_lt _ _ _ (Slice.arr_lt_of_valid s m h hpos)]

theorem Slice.index_eq (s : Slice) (i : Nat) (m : Mem) :
    s.index i m = if i < s.len then (s.elems m)[i]? else none := by
  unfold Slice.index Slice.elems
  split
  · next h => simp [List.getElem?_take, h]
  · rfl

theorem splice_fresh (n : Nat) (vals : List float64) (h : vals.length = n) :
    splice (List.replicate n 0) 0 (vals.take n) = vals := by
  unfold splice
  rw [List.take_of_length_le (Nat.le_of_eq h)]
  simp [h]

/-! ## NewAggregationDistribution -/

/-- On a well-formed argument the constructor appends one backing array, a
copy of the argument's contents, and one struct whose `bounds` is a header
over exactly that array. -/
theorem NewAggregationDistribution_eq (bounds : Slice) (m : Mem) (h : bounds.Valid m) :
    NewAggregationDistribution bounds m =
      (m.dists.length,
        { m with
          floats := m.floats ++ [bounds.elems m],
          dists := m.dists ++ [⟨⟨m.floats.length, 0, bounds.len, bounds.len⟩⟩] }) := by
  have hlen := Slice.elems_length bounds m h
  have hal := Slice.elems_alloc bounds m (List.replicate bounds.len 0) h
  have hsp := splice_fresh bounds.len (bounds.elems m) hlen
  simp only [NewAggregationDistribution, make, copy, Slice.elems, Slice.backing,
    getD_append_length, set_append_length, Nat.min_self]
  rw [hal, hsp]
  rfl

/-- C1: for every well-formed argument slice (empty, single-element, unsorted
or with duplicates alike), NewAggregationDistribution returns an aggregation
whose stored bounds have the length of the argument and, at every index, the
element of the argument: the same contents in the same order. -/
theorem NewAggregationDistribution_stores_bounds (m : Mem) (bounds : Slice)
    (h : bounds.Valid m) :
    ∃ s, AggregationDistribution.boundsField (NewAggregationDistribution bounds m).1
          (NewAggregationDistribution bounds m).2 = some s
      ∧ s.len = bounds.len
      ∧ (∀ i, s.index i (NewAggregationDistribution bounds m).2 = bounds.index i m)
      ∧ s.elems (NewAggregationDistribution bounds m).2 = bounds.elems m
      ∧ (bounds.elems m).length = bounds.len := by
  have hlen := Slice.elems_length bounds m h
  rw [NewAggregationDistribution_eq bounds m h]
  have he : (⟨m.floats.length, 0, bounds.len, bounds.len⟩ : Slice).elems
      { m with
        floats := m.floats ++ [bounds.elems m],
        dists := m.dists ++ [⟨⟨m.floats.length, 0, bounds.len, bounds.len⟩⟩] }
      = bounds.elems m := by
    simp only [Slice.elems, Slice.backing, getD_append_length, List.drop_zero]
    exact List.take_of_length_le (Nat.le_of_eq hlen)
  refine ⟨⟨m.floats.length, 0, bounds.len, bounds.len⟩, ?_, rfl, ?_, he, hlen⟩
  · simp [AggregationDistribution.boundsField]
  · intro i
    rw [Slice.index_eq, Slice.index_eq, he]

/-! ## Writes by the caller -/

theorem Slice.store_spec (s : Slice) (i : Nat) (v : float64) (m : Mem) (hi : i < s.len) :
    ∃ m2, s.store i v m = some m2
      ∧ m2.floats = m.floats.set s.arr ((m.floats.getD s.arr []).set (s.off + i) v)
      ∧ m2.ints = m.ints ∧ m2.dists = m.dists ∧ m2.countVals = m.countVals
      ∧ m2.distVals = m.distVals := by
  refine ⟨{ m with floats := m.floats.set s.arr ((m.floats.getD s.arr []).set (s.off + i) v) },
    ?_, rfl, rfl, rfl, rfl, rfl⟩
  simp only [Slice.store, if_pos hi]
  rfl

theorem NewAggregationDistribution_spec (bounds : Slice) (m : Mem) (h : bounds.Valid m) :
    (NewAggregationDistribution bounds m).1 = m.dists.length
      ∧ (NewAggregationDistribution bounds m).2.floats = m.floats ++ [bounds.elems m]
      ∧ (NewAggregationDistribution bounds m).2.dists
          = m.dists ++ [⟨⟨m.floats.length, 0, bounds.len, bounds.len⟩⟩]
      ∧ (NewAggregationDistribution bounds m).2.ints = m.ints
      ∧ (NewAggregationDistribution bounds m).2.countVals = m.countVals
      ∧ (NewAggregationDistribution bounds m).2.distVals = m.distVals := by
  rw [NewAggregationDistribution_eq bounds m h]
  exact ⟨rfl, rfl, rfl, rfl, rfl, rfl⟩

/-- C2: after `a := NewAggregationDistribution(b)`, the stored bounds live in
a backing array other than the caller's, and a write `b[i] = v` by the caller
(any `i < len(b)`, any `v`) changes the caller's sequence and leaves the stored
bounds of `a` equal to the contents `b` had at construction time. -/
theorem NewAggregationDistribution_copy_isolated (m : Mem) (bounds : Slice) (i : Nat)
    (v : float64) (h : bounds.Valid m) (hi : i < bounds.len) :
    ∃ s m2, AggregationDistribution.boundsField (NewAggregationDistribution bounds m).1
          (NewAggregationDistribution bounds m).2 = some s
      ∧ s.arr ≠ bounds.arr
      ∧ bounds.store i v (NewAggregationDistribution bounds m).2 = some m2
      ∧ bounds.elems m2 = (bounds.elems m).set i v
      ∧ storedBounds (NewAggregationDistribution bounds m).1
          (NewAggregationDistribution bounds m).2 = some (bounds.elems m)
      ∧ storedBounds (NewAggregationDistribution bounds m).1 m2 = some (bounds.elems m) := by
  have hlen := Slice.elems_length bounds m h
  have harr := Slice.arr_lt_of_valid bounds m h (by omega)
  obtain ⟨ha, hf, hd, -, -, -⟩ := NewAggregationDistribution_spec bounds m h
  generalize NewAggregationDistribution bounds m = r at ha hf hd
  obtain ⟨a, m1⟩ := r
  simp only at ha hf hd
  subst ha
  obtain ⟨m2, hst, hf2, -, hd2, -, -⟩ := Slice.store_spec bounds i v m1 hi
  have htake : List.take bounds.len (bounds.elems m) = bounds.elems m :=
    List.take_of_length_le (Nat.le_of_eq hlen)
  refine ⟨⟨m.floats.length, 0, bounds.len, bounds.len⟩, m2, ?_, ?_, hst, ?_, ?_, ?_⟩
  · simp [AggregationDistribution.boundsField, hd]
  · simp only; omega
  · simp only [Slice.elems, Slice.backing, hf2, hf]
    rw [getD_append_lt _ _ _ harr, set_append_lt _ _ _ _ harr,
      getD_append_lt _ _ _ (by simpa using harr), getD_set_same _ _ _ harr, window_set]
  · generalize bounds.elems m = E at hf htake
    simp only [storedBounds, Slice.elems, Slice.backing, hd, hf]
    simp [List.getD_eq_getElem?_getD, htake]
  · generalize bounds.elems m = E at hf htake
    simp only [storedBounds, Slice.elems, Slice.backing, hd2, hd, hf2, hf]
    rw [getD_append_lt _ _ _ harr, set_append_lt _ _ _ _ harr]
    have hl : (m.floats.set bounds.arr ((m.floats.getD bounds.arr []).set (bounds.off + i) v)).length
        = m.floats.length := by simp
    simp only [List.get?_eq_getElem?, List.getElem?_concat_length, Option.map_some',
      List.drop_zero]
    rw [← hl, getD_append_length, htake]

/-! ## The factories -/

/-- C3: every invocation of the factory of an AggregationCount, in any
memory, returns exactly `newAggregationCountValue(0)`: a count accumulator
whose count reads 0. -/
theorem count_factory_initial_zero (a : AggregationCount) (m : Mem) :
    ∃ v m1, a.aggregationValueConstructor m = some (v, m1)
      ∧ (v, m1) = newAggregationCountValue 0 m
      ∧ viewCount v m1 = some 0 := by
  refine ⟨_, _, rfl, rfl, ?_⟩
  simp [viewCount, newAggregationCountValue]

theorem Mem.Extends.refl (m : Mem) : m.Extends m :=
  ⟨rfl, rfl, rfl, ⟨[], by simp⟩, ⟨[], by simp⟩⟩

theorem Mem.Extends.trans {m m1 m2 : Mem} (h1 : m.Extends m1) (h2 : m1.Extends m2) :
    m.Extends m2 := by
  obtain ⟨f1, d1, c1, ⟨xs1, i1⟩, ⟨ys1, v1⟩⟩ := h1
  obtain ⟨f2, d2, c2, ⟨xs2, i2⟩, ⟨ys2, v2⟩⟩ := h2
  refine ⟨f2.trans f1, d2.trans d1, c2.trans c1, ⟨xs1 ++ xs2, ?_⟩, ⟨ys1 ++ ys2, ?_⟩⟩
  · rw [i2, i1, List.append_assoc]
  · rw [v2, v1, List.append_assoc]

theorem getElem?_append_some {β : Type} (l xs : List β) (i : Nat) (x : β)
    (h : l[i]? = some x) : (l ++ xs)[i]? = some x := by
  have hi : i < l.length := by
    by_contra hc
    rw [List.getElem?_eq_none (by omega)] at h
    cases h
  rw [List.getElem?_append_left hi, h]

theorem FreshAt.of_extends {v : Nat} {s : Slice} {m m2 : Mem} (h : FreshAt v s m)
    (he : m.Extends m2) : FreshAt v s m2 := by
  obtain ⟨c, hv, hc⟩ := h
  obtain ⟨-, -, -, ⟨xs, hi⟩, ⟨ys, hd⟩⟩ := he
  exact ⟨c, by rw [hd]; exact getElem?_append_some _ _ _ _ hv,
    by rw [hi]; exact getElem?_append_some _ _ _ _ hc⟩

theorem FreshAt.viewDist {v : Nat} {s : Slice} {m : Mem} (h : FreshAt v s m) :
    viewDist v m = some ⟨s.elems m, List.replicate (s.len + 1) 0, 0, float64.zero,
      float64.posInf, float64.negInf⟩ := by
  obtain ⟨c, hv, hc⟩ := h
  simp [stats.viewDist, hv, List.getD_eq_getElem?_getD, hc]

theorem Slice.elems_extends (s : Slice) {m m2 : Mem} (he : m.Extends m2) :
    s.elems m2 = s.elems m := by
  simp only [Slice.elems, Slice.backing, he.1]

theorem boundsField_extends (a : Nat) {m m2 : Mem} (he : m.Extends m2) :
    AggregationDistribution.boundsField a m2 = AggregationDistribution.boundsField a m := by
  simp only [AggregationDistribution.boundsField, he.2.1]

theorem storedBounds_extends (a : Nat) {m m2 : Mem} (he : m.Extends m2) :
    storedBounds a m2 = storedBounds a m := by
  simp only [storedBounds, Slice.elems, Slice.backing, he.1, he.2.1]

/-- One invocation of the factory: it returns the next free accumulator
address and a memory that extends the old one by one fresh accumulator. -/
theorem factory_spec (a : Nat) (s : Slice) (m : Mem)
    (hb : AggregationDistribution.boundsField a m = some s) :
    ∃ m1, AggregationDistribution.aggregationValueConstructor a m = some (m.distVals.length, m1)
      ∧ m.Extends m1 ∧ FreshAt m.distVals.length s m1
      ∧ m1.ints = m.ints ++ [List.replicate (s.len + 1) 0]
      ∧ m1.distVals = m.distVals ++
          [⟨m.ints.length, s, 0, float64.zero, float64.posInf, float64.negInf⟩] := by
  refine ⟨(newAggregationDistributionValue s m).2, ?_, ?_, ?_, rfl, rfl⟩
  · simp only [AggregationDistribution.aggregationValueConstructor, hb]
    rfl
  · exact ⟨rfl, rfl, rfl, ⟨_, rfl⟩, ⟨_, rfl⟩⟩
  · refine ⟨m.ints.length, ?_, ?_⟩ <;> simp [newAggregationDistributionValue]

theorem invocations_spec (a : Nat) (s : Slice) (n : Nat) : ∀ (m : Mem),
    AggregationDistribution.boundsField a m = some s →
    ∃ vs m2, invocations (AggregationDistribution.aggregationValueConstructor a) n m
        = some (vs, m2)
      ∧ vs.length = n ∧ m.Extends m2 ∧ ∀ v ∈ vs, FreshAt v s m2 := by
  induction n with
  | zero =>
    intro m _
    exact ⟨[], m, rfl, rfl, Mem.Extends.refl m, by simp⟩
  | succ k ih =>
    intro m hb
    obtain ⟨m1, hf, he1, hfr, -, -⟩ := factory_spec a s m hb
    obtain ⟨vs, m2, hinv, hlen, he2, hall⟩ := ih m1 (by rw [boundsField_extends a he1]; exact hb)
    refine ⟨m.distVals.length :: vs, m2, ?_, by simp [hlen], he1.trans he2, ?_⟩
    · simp only [invocations, hf, hinv]
    · intro v hv
      rcases List.mem_cons.mp hv with rfl | hv
      · exact hfr.of_extends he2
      · exact hall v hv

/-- C8: for every allocated AggregationDistribution `a`, any number of
invocations of its factory run to completion and leave `a` as it was: the same
`bounds` header and the same stored contents. -/
theorem factory_preserves_aggregation (a : Nat) (m : Mem) (h : a < m.dists.length) (n : Nat) :
    ∃ vs m2 s bs, invocations (AggregationDistribution.aggregationValueConstructor a) n m
        = some (vs, m2)
      ∧ vs.length = n
      ∧ AggregationDistribution.boundsField a m = some s
      ∧ AggregationDistribution.boundsField a m2 = some s
      ∧ storedBounds a m = some bs
      ∧ storedBounds a m2 = some bs := by
  have hb : AggregationDistribution.boundsField a m = some (m.dists[a]).bounds := by
    simp [AggregationDistribution.boundsField, List.getElem?_eq_getElem h]
  have hs : storedBounds a m = some ((m.dists[a]).bounds.elems m) := by
    simp [storedBounds, List.getElem?_eq_getElem h]
  obtain ⟨vs, m2, hinv, hlen, hext, -⟩ := invocations_spec a _ n m hb
  exact ⟨vs, m2, _, _, hinv, hlen, hb, by rw [boundsField_extends a hext]; exact hb, hs,
    by rw [storedBounds_extends a hext]; exact hs⟩

/-- C9: NewAggregationCount() and NewAggregationDistribution(b), for every
`b`, report `isAggregation() == true`, so does every Aggregation, and an
Aggregation is either a Count or a Distribution. -/
theorem isAggregation_true :
    NewAggregationCount.isAggregation = true
      ∧ (∀ (bounds : Slice) (m : Mem),
          AggregationDistribution.isAggregation (NewAggregationDistribution bounds m).1 = true)
      ∧ (∀ (bounds : Slice) (m : Mem),
          (Aggregation.distribution (NewAggregationDistribution bounds m).1).isAggregation = true)
      ∧ (Aggregation.count NewAggregationCount).isAggregation = true
      ∧ (∀ a : Aggregation, a.isAggregation = true)
      ∧ (∀ a : Aggregation, (∃ c, a = Aggregation.count c) ∨ (∃ d, a = Aggregation.distribution d)) := by
  refine ⟨rfl, fun _ _ => rfl, fun _ _ => rfl, rfl, ?_, ?_⟩
  · intro a; cases a <;> rfl
  · intro a
    cases a with
    | count c => exact Or.inl ⟨c, rfl⟩
    | distribution d => exact Or.inr ⟨d, rfl⟩

/-! ## The factory under either seeding -/

/-- The slice `make` returns and the memory after `copy` into it: one array
more, which holds the source's contents when the lengths agree. -/
theorem copy_make (src : Slice) (k : Mem) :
    (make src.len k).1 = ⟨k.floats.length, 0, src.len, src.len⟩
      ∧ ∃ X, (copy (make src.len k).1 src (make src.len k).2).2
            = { k with floats := k.floats ++ [X] }
          ∧ (src.Valid k → X = src.elems k) := by
  refine ⟨rfl, splice ((make src.len k).1.backing (make src.len k).2) 0
    ((src.elems (make src.len k).2).take (min src.len src.len)), ?_, ?_⟩
  · simp only [make, copy, Slice.backing, getD_append_length, set_append_length]
  · intro hv
    have hlen := Slice.elems_length src k hv
    have hal := Slice.elems_alloc src k (List.replicate src.len 0) hv
    have hsp := splice_fresh src.len (src.elems k) hlen
    simp only [make, Slice.elems, Slice.backing, Nat.min_self, getD_append_length] at hal hsp ⊢
    rw [hal, hsp]

theorem storedBounds_of_field (a : Nat) (s : Slice) (k : Mem)
    (hb : AggregationDistribution.boundsField a k = some s) :
    storedBounds a k = some (s.elems k) := by
  simp only [AggregationDistribution.boundsField, storedBounds] at hb ⊢
  cases hq : k.dists[a]? with
  | none => rw [hq] at hb; cases hb
  | some d =>
    rw [hq] at hb
    simp only [Option.map_some', Option.some.injEq] at hb ⊢
    rw [hb]

/-- One invocation of the factory, under either seeding: it returns the next
free accumulator address; the memory gains one accumulator with a counter
array of its own and, under `copy`, one float array of its own. -/
theorem factoryAs_structure (mode : Seeding) (a : Nat) (s : Slice) (k : Mem)
    (hb : AggregationDistribution.boundsField a k = some s) :
    ∃ k1 hdr fs, AggregationDistribution.aggregationValueConstructorAs mode a k
          = some (k.distVals.length, k1)
      ∧ k1.dists = k.dists ∧ k1.countVals = k.countVals
      ∧ k1.ints = k.ints ++ [List.replicate (s.len + 1) 0]
      ∧ k1.distVals = k.distVals ++
          [⟨k.ints.length, hdr, 0, float64.zero, float64.posInf, float64.negInf⟩]
      ∧ k1.floats = k.floats ++ fs
      ∧ (mode = Seeding.reference → hdr = s ∧ fs = [])
      ∧ (mode = Seeding.copy → hdr = ⟨k.floats.length, 0, s.len, s.len⟩
          ∧ ∃ X, fs = [X] ∧ (s.Valid k → X = s.elems k)) := by
  cases mode with
  | reference =>
    refine ⟨(newAggregationDistributionValue s k).2, s, [], ?_, rfl, rfl, rfl, rfl, ?_, ?_, ?_⟩
    · simp only [AggregationDistribution.aggregationValueConstructorAs, hb,
        newAggregationDistributionValueAs]
      rfl
    · simp [newAggregationDistributionValue]
    · intro _; exact ⟨rfl, rfl⟩
    · intro hc; cases hc
  | copy =>
    obtain ⟨hmk, X, hcp, hX⟩ := copy_make s k
    have hcp2 := hcp
    rw [hmk] at hcp2
    refine ⟨(newAggregationDistributionValueCopy s k).2, ⟨k.floats.length, 0, s.len, s.len⟩, [X],
      ?_, ?_, ?_, ?_, ?_, ?_, ?_, ?_⟩
    · simp only [AggregationDistribution.aggregationValueConstructorAs, hb,
        newAggregationDistributionValueAs, newAggregationDistributionValueCopy, hcp]
    · simp only [newAggregationDistributionValueCopy, hcp]
    · simp only [newAggregationDistributionValueCopy, hcp]
    · simp only [newAggregationDistributionValueCopy, hcp]
    · simp only [newAggregationDistributionValueCopy, hmk, hcp2]
    · simp only [newAggregationDistributionValueCopy, hcp]
    · intro hc; cases hc
    · intro _; exact ⟨rfl, X, rfl, hX⟩

/-- What one invocation yields, under either seeding, from an aggregation
whose bounds are a well-formed slice: an accumulator that reads the stored
bounds, `len+1` zero counters and the initial scalar fields. -/
theorem factoryAs_view (mode : Seeding) (a : Nat) (s : Slice) (k : Mem)
    (hb : AggregationDistribution.boundsField a k = some s) (hv : s.Valid k) :
    ∃ k1, AggregationDistribution.aggregationValueConstructorAs mode a k
          = some (k.distVals.length, k1)
      ∧ viewDist k.distVals.length k1 = some ⟨s.elems k, List.replicate (s.len + 1) 0, 0,
          float64.zero, float64.posInf, float64.negInf⟩ := by
  obtain ⟨k1, hdr, fs, hf, -, -, hi, hd, hfl, href, hcopy⟩ := factoryAs_structure mode a s k hb
  refine ⟨k1, hf, ?_⟩
  have hlen := Slice.elems_length s k hv
  have he : hdr.elems k1 = s.elems k := by
    cases mode with
    | reference =>
      obtain ⟨rfl, rfl⟩ := href rfl
      simp only [Slice.elems, Slice.backing, hfl, List.append_nil]
    | copy =>
      obtain ⟨rfl, X, rfl, hX⟩ := hcopy rfl
      rw [hX hv] at hfl
      have htake : List.take s.len (s.elems k) = s.elems k :=
        List.take_of_length_le (Nat.le_of_eq hlen)
      generalize s.elems k = E at hfl htake ⊢
      simp only [Slice.elems, Slice.backing, hfl, getD_append_length, List.drop_zero, htake]
  simp only [viewDist, hd, List.getElem?_concat_length, Option.map_some', he, hi,
    getD_append_length]

/-- The aggregation the constructor returns: its `bounds` field is a header
over all of the fresh array, and its stored bounds are the argument's
contents. -/
theorem NewAggregationDistribution_header (bounds : Slice) (m : Mem) (h : bounds.Valid m) :
    AggregationDistribution.boundsField (NewAggregationDistribution bounds m).1
        (NewAggregationDistribution bounds m).2
      = some ⟨m.floats.length, 0, bounds.len, bounds.len⟩
    ∧ storedBounds (NewAggregationDistribution bounds m).1
        (NewAggregationDistribution bounds m).2 = some (bounds.elems m)
    ∧ (⟨m.floats.length, 0, bounds.len, bounds.len⟩ : Slice).Valid
        (NewAggregationDistribution bounds m).2 := by
  have hlen := Slice.elems_length bounds m h
  obtain ⟨ha, hf, hd, -, -, -⟩ := NewAggregationDistribution_spec bounds m h
  have hb : AggregationDistribution.boundsField (NewAggregationDistribution bounds m).1
      (NewAggregationDistribution bounds m).2
      = some ⟨m.floats.length, 0, bounds.len, bounds.len⟩ := by
    simp [AggregationDistribution.boundsField, ha, hd]
  refine ⟨hb, ?_, ?_⟩
  · rw [storedBounds_of_field _ _ _ hb]
    have htake : List.take bounds.len (bounds.elems m) = bounds.elems m :=
      List.take_of_length_le (Nat.le_of_eq hlen)
    generalize bounds.elems m = E at hf htake ⊢
    simp only [Slice.elems, Slice.backing, hf, getD_append_length, List.drop_zero, htake]
  · refine ⟨Nat.le_refl _, ?_⟩
    simp only [Slice.backing, hf, getD_append_length, hlen]
    omega

/-- In a memory where the constructed aggregation is as the constructor left
it (same `bounds` header, same stored contents), that header is a well-formed
slice reading the argument's contents. -/
theorem constructed_intact (bounds : Slice) (m : Mem) (h : bounds.Valid m) (k : Mem)
    (hfield : AggregationDistribution.boundsField (NewAggregationDistribution bounds m).1 k
      = AggregationDistribution.boundsField (NewAggregationDistribution bounds m).1
          (NewAggregationDistribution bounds m).2)
    (hstored : storedBounds (NewAggregationDistribution bounds m).1 k
      = storedBounds (NewAggregationDistribution bounds m).1
          (NewAggregationDistribution bounds m).2) :
    ∃ s, AggregationDistribution.boundsField (NewAggregationDistribution bounds m).1 k = some s
      ∧ s.len = bounds.len ∧ s.elems k = bounds.elems m ∧ s.Valid k := by
  obtain ⟨hb, hs, -⟩ := NewAggregationDistribution_header bounds m h
  rw [hb] at hfield
  rw [hs, storedBounds_of_field _ _ _ hfield] at hstored
  have he := Option.some.inj hstored
  have hlen := Slice.elems_length bounds m h
  refine ⟨_, hfield, rfl, he, Nat.le_refl _, ?_⟩
  have hl : ((⟨m.floats.length, 0, bounds.len, bounds.len⟩ : Slice).elems k).length
      = bounds.len := by rw [he, hlen]
  simp only [Slice.elems, List.drop_zero, List.length_take] at hl
  simp only [Nat.zero_add]
  omega

/-- C4: in every memory in which the aggregation `NewAggregationDistribution(b)`
is as the constructor left it, whatever else has been allocated or written
since, every invocation of its factory runs and yields a distribution
accumulator whose bounds read as the contents of `b` and which has `len(b)+1`
bucket counters, all zero: under either seeding of the accumulator, for one
invocation and for any number of invocations in a row. -/
theorem distribution_factory_buckets (mode : Seeding) (m : Mem) (bounds : Slice)
    (h : bounds.Valid m) (k : Mem)
    (hfield : AggregationDistribution.boundsField (NewAggregationDistribution bounds m).1 k
      = AggregationDistribution.boundsField (NewAggregationDistribution bounds m).1
          (NewAggregationDistribution bounds m).2)
    (hstored : storedBounds (NewAggregationDistribution bounds m).1 k
      = storedBounds (NewAggregationDistribution bounds m).1
          (NewAggregationDistribution bounds m).2)
    (n : Nat) :
    (∃ v k1 d, AggregationDistribution.aggregationValueConstructorAs mode
          (NewAggregationDistribution bounds m).1 k = some (v, k1)
      ∧ viewDist v k1 = some d ∧ d.bounds = bounds.elems m
      ∧ d.buckets.length = bounds.len + 1
      ∧ d.buckets = List.replicate (bounds.len + 1) 0)
    ∧ AggregationDistribution.aggregationValueConstructorAs Seeding.reference
          (NewAggregationDistribution bounds m).1 k
        = AggregationDistribution.aggregationValueConstructor
          (NewAggregationDistribution bounds m).1 k
    ∧ (∃ vs k2, invocations (AggregationDistribution.aggregationValueConstructor
          (NewAggregationDistribution bounds m).1) n k = some (vs, k2)
      ∧ vs.length = n
      ∧ ∀ v ∈ vs, ∃ d, viewDist v k2 = some d ∧ d.bounds = bounds.elems m
          ∧ d.buckets.length = bounds.len + 1
          ∧ d.buckets = List.replicate (bounds.len + 1) 0) := by
  obtain ⟨s, hb, hl, he, hv⟩ := constructed_intact bounds m h k hfield hstored
  refine ⟨?_, rfl, ?_⟩
  · obtain ⟨k1, hf, hview⟩ := factoryAs_view mode _ s k hb hv
    refine ⟨_, k1, _, hf, hview, he, ?_, ?_⟩
    · simp [hl]
    · simp only [hl]
  · obtain ⟨vs, k2, hinv, hlen, hext, hall⟩ := invocations_spec _ s n k hb
    refine ⟨vs, k2, hinv, hlen, ?_⟩
    intro v hv2
    refine ⟨_, (hall v hv2).viewDist, ?_, ?_, ?_⟩
    · simp only [Slice.elems_extends s hext, he]
    · simp [hl]
    · simp only [hl]

/-- C10: the factory's result is a function of the stored bounds. For any two
allocated aggregations (the same one or not), in any two memories, whose
`bounds` are well-formed slices of equal contents: each invocation passes its
aggregation's own `bounds` to the helper, and the two accumulators read the
same (bounds, counters, fields), under either seeding. Aggregations built by
the constructor from slices of equal contents are such aggregations. Two
invocations of one aggregation's factory pass the same header. A Count
factory always passes 0. -/
theorem factory_deterministic (mode : Seeding) (k1 k2 : Mem) (a1 a2 : Nat) (s1 s2 : Slice)
    (hb1 : AggregationDistribution.boundsField a1 k1 = some s1)
    (hb2 : AggregationDistribution.boundsField a2 k2 = some s2)
    (hv1 : s1.Valid k1) (hv2 : s2.Valid k2) (heq : s1.elems k1 = s2.elems k2) :
    (∃ v1 n1 v2 n2 d,
        AggregationDistribution.aggregationValueConstructorAs mode a1 k1 = some (v1, n1)
      ∧ AggregationDistribution.aggregationValueConstructorAs mode a2 k2 = some (v2, n2)
      ∧ (v1, n1) = newAggregationDistributionValueAs mode s1 k1
      ∧ (v2, n2) = newAggregationDistributionValueAs mode s2 k2
      ∧ viewDist v1 n1 = some d ∧ viewDist v2 n2 = some d
      ∧ d.bounds = s1.elems k1 ∧ d.buckets = List.replicate (s1.len + 1) 0)
    ∧ (∀ (m1 m2 : Mem) (b1 b2 : Slice), b1.Valid m1 → b2.Valid m2 →
        b1.elems m1 = b2.elems m2 →
        ∃ t1 t2,
          AggregationDistribution.boundsField (NewAggregationDistribution b1 m1).1
            (NewAggregationDistribution b1 m1).2 = some t1
        ∧ AggregationDistribution.boundsField (NewAggregationDistribution b2 m2).1
            (NewAggregationDistribution b2 m2).2 = some t2
        ∧ t1.Valid (NewAggregationDistribution b1 m1).2
        ∧ t2.Valid (NewAggregationDistribution b2 m2).2
        ∧ t1.elems (NewAggregationDistribution b1 m1).2
            = t2.elems (NewAggregationDistribution b2 m2).2)
    ∧ (∀ (a : Nat) (s : Slice) (j1 j2 : Mem),
        AggregationDistribution.boundsField a j1 = some s →
        AggregationDistribution.boundsField a j2 = some s →
          AggregationDistribution.aggregationValueConstructorAs mode a j1
            = some (newAggregationDistributionValueAs mode s j1)
        ∧ AggregationDistribution.aggregationValueConstructorAs mode a j2
            = some (newAggregationDistributionValueAs mode s j2))
    ∧ (∀ (c : AggregationCount) (j1 j2 : Mem), ∃ w1 p1 w2 p2,
        c.aggregationValueConstructor j1 = some (w1, p1)
      ∧ c.aggregationValueConstructor j2 = some (w2, p2)
      ∧ (w1, p1) = newAggregationCountValue 0 j1
      ∧ (w2, p2) = newAggregationCountValue 0 j2
      ∧ viewCount w1 p1 = some 0 ∧ viewCount w2 p2 = some 0) := by
  have hlen : s1.len = s2.len := by
    rw [← Slice.elems_length s1 k1 hv1, ← Slice.elems_length s2 k2 hv2, heq]
  have hcall : ∀ (a : Nat) (s : Slice) (j : Mem),
      AggregationDistribution.boundsField a j = some s →
      AggregationDistribution.aggregationValueConstructorAs mode a j
        = some (newAggregationDistributionValueAs mode s j) := by
    intro a s j hb
    simp only [AggregationDistribution.aggregationValueConstructorAs, hb]
  refine ⟨?_, ?_, ?_, ?_⟩
  · obtain ⟨n1, hf1, hview1⟩ := factoryAs_view mode a1 s1 k1 hb1 hv1
    obtain ⟨n2, hf2, hview2⟩ := factoryAs_view mode a2 s2 k2 hb2 hv2
    refine ⟨_, n1, _, n2, _, hf1, hf2, ?_, ?_, hview1, ?_, rfl, rfl⟩
    · have := hcall a1 s1 k1 hb1
      rw [hf1] at this
      exact Option.some.inj this
    · have := hcall a2 s2 k2 hb2
      rw [hf2] at this
      exact Option.some.inj this
    · rw [hview2, heq, hlen]
  · intro m1 m2 b1 b2 h1 h2 hcont
    obtain ⟨hh1, hs1, hw1⟩ := NewAggregationDistribution_header b1 m1 h1
    obtain ⟨hh2, hs2, hw2⟩ := NewAggregationDistribution_header b2 m2 h2
    refine ⟨_, _, hh1, hh2, hw1, hw2, ?_⟩
    have e1 := storedBounds_of_field _ _ _ hh1
    have e2 := storedBounds_of_field _ _ _ hh2
    rw [hs1] at e1
    rw [hs2] at e2
    rw [← Option.some.inj e1, ← Option.some.inj e2, hcont]
  · intro a s j1 j2 h1 h2
    exact ⟨hcall a s j1 h1, hcall a s j2 h2⟩
  · intro c j1 j2
    refine ⟨_, _, _, _, rfl, rfl, rfl, rfl, ?_, ?_⟩ <;>
      simp [viewCount, newAggregationCountValue]

/-! ## Writes to accumulators -/

theorem heldSlices_some (v : Nat) (m : Mem) (c : Nat) (h : Slice)
    (hh : heldSlices v m = some (c, h)) :
    ∃ d, m.distVals[v]? = some d ∧ d.countPerBucket = c ∧ d.bounds = h := by
  simp only [heldSlices] at hh
  cases hq : m.distVals[v]? with
  | none => rw [hq] at hh; cases hh
  | some d =>
    rw [hq] at hh
    simp only [Option.map_some', Option.some.injEq, Prod.mk.injEq] at hh
    exact ⟨d, rfl, hh.1, hh.2⟩

theorem heldSlices_of (v : Nat) (m : Mem) (d : AggregationDistributionValue)
    (hd : m.distVals[v]? = some d) : heldSlices v m = some (d.countPerBucket, d.bounds) := by
  simp only [heldSlices, hd, Option.map_some']

theorem lt_of_getElem?_some {β : Type} (l : List β) (i : Nat) (x : β) (h : l[i]? = some x) :
    i < l.length := by
  by_contra hc
  rw [List.getElem?_eq_none (by omega)] at h
  cases h

theorem Mem.SameExcept.unchanged (v c : Nat) (f : Option Nat) (m : Mem) : m.SameExcept v c f m :=
  ⟨rfl, rfl, fun _ _ => rfl, rfl, fun _ _ => rfl, fun _ _ => rfl⟩

theorem Mem.SameExcept.andThen {v c : Nat} {f : Option Nat} {m m1 m2 : Mem}
    (h1 : m.SameExcept v c f m1) (h2 : m1.SameExcept v c f m2) : m.SameExcept v c f m2 := by
  obtain ⟨a1, b1, c1, d1, e1, f1⟩ := h1
  obtain ⟨a2, b2, c2, d2, e2, f2⟩ := h2
  exact ⟨a2.trans a1, b2.trans b1, fun w hw => (c2 w hw).trans (c1 w hw), d2.trans d1,
    fun j hj => (e2 j hj).trans (e1 j hj), fun j hj => (f2 j hj).trans (f1 j hj)⟩

/-- One write to the accumulator at `v` stays within that accumulator: its
scalar fields, its counter array and, for a write to its bounds, the array its
bounds header points into. -/
theorem Write.apply_frame (w : Write) (v : Nat) (m m2 : Mem) (c : Nat) (h : Slice)
    (f : Option Nat) (hh : heldSlices v m = some (c, h))
    (hf : w.isBound = true → f = some h.arr) (happ : w.apply v m = some m2) :
    m.SameExcept v c f m2 := by
  obtain ⟨d, hd, rfl, rfl⟩ := heldSlices_some v m c h hh
  cases w with
  | bucket i x =>
    simp only [Write.apply, setBucket, hd] at happ
    split at happ
    · cases happ
      exact ⟨rfl, rfl, fun _ _ => rfl, rfl, fun j hj => getD_set_other _ _ _ _ (Ne.symm hj),
        fun _ _ => rfl⟩
    · cases happ
  | fields count sum min max =>
    simp only [Write.apply, setFields, hd] at happ
    cases happ
    refine ⟨rfl, rfl, fun w hw => List.getElem?_set_ne (Ne.symm hw), ?_, fun _ _ => rfl,
      fun _ _ => rfl⟩
    simp only [heldSlices, List.getElem?_set_self (lt_of_getElem?_some _ _ _ hd), hd,
      Option.map_some']
  | bound i x =>
    have hfe := hf rfl
    simp only [Write.apply, setGivenBound, hd, Slice.store] at happ
    split at happ
    · cases happ
      refine ⟨rfl, rfl, fun _ _ => rfl, rfl, fun _ _ => rfl, fun j hj => ?_⟩
      refine getD_set_other _ _ _ _ ?_
      intro he
      exact hj (by rw [hfe, he])
    · cases happ

/-- A sequence of writes to the accumulator at `v` stays within that
accumulator. -/
theorem applyWrites_frame (v : Nat) (c : Nat) (h : Slice) (f : Option Nat) :
    ∀ (ws : List Write) (m m2 : Mem), heldSlices v m = some (c, h) →
      (∀ w ∈ ws, w.isBound = true → f = some h.arr) →
      applyWrites ws v m = some m2 → m.SameExcept v c f m2 := by
  intro ws
  induction ws with
  | nil =>
    intro m m2 _ _ happ
    simp only [applyWrites, Option.some.injEq] at happ
    subst happ
    exact Mem.SameExcept.unchanged v c f m
  | cons w ws ih =>
    intro m m2 hh hf happ
    simp only [applyWrites] at happ
    cases hq : w.apply v m with
    | none => rw [hq] at happ; cases happ
    | some m1 =>
      rw [hq] at happ
      have h1 := Write.apply_frame w v m m1 c h f hh (hf w (List.mem_cons_self _ _)) hq
      have hh1 : heldSlices v m1 = some (c, h) := by rw [h1.2.2.2.1]; exact hh
      exact h1.andThen (ih m1 m2 hh1 (fun w2 hw2 => hf w2 (List.mem_cons_of_mem _ hw2)) happ)

/-- What another accumulator reads is unchanged when its counter array and
the array its bounds point into are outside the change. -/
theorem viewDist_sameExcept {v c : Nat} {f : Option Nat} {m m2 : Mem}
    (hs : m.SameExcept v c f m2) (w : Nat) (dw : AggregationDistributionValue)
    (hne : w ≠ v) (hd : m.distVals[w]? = some dw) (hc : dw.countPerBucket ≠ c)
    (hf : f ≠ some dw.bounds.arr) : viewDist w m2 = viewDist w m := by
  obtain ⟨-, -, hdv, -, hi, hfl⟩ := hs
  simp only [viewDist, hdv w hne, hd, Option.map_some', Slice.elems, Slice.backing,
    hi _ hc, hfl _ hf]

/-- What an aggregation stores is unchanged when the array its bounds point
into is outside the change, or its bounds are empty. -/
theorem storedBounds_sameExcept {v c : Nat} {f : Option Nat} {m m2 : Mem}
    (hs : m.SameExcept v c f m2) (a : Nat) (s : Slice)
    (hb : AggregationDistribution.boundsField a m = some s)
    (hf : s.len = 0 ∨ f ≠ some s.arr) : storedBounds a m2 = storedBounds a m := by
  obtain ⟨hd, -, -, -, -, hfl⟩ := hs
  have hb2 : AggregationDistribution.boundsField a m2 = some s := by
    simp only [AggregationDistribution.boundsField, hd] at hb ⊢
    exact hb
  rw [storedBounds_of_field a s m hb, storedBounds_of_field a s m2 hb2]
  rcases hf with h0 | hne
  · simp only [Slice.elems, h0, List.take_zero]
  · simp only [Slice.elems, Slice.backing, hfl _ hne]

/-- A sequence of writes to the count accumulator at `v` leaves every other
count accumulator as it was. -/
theorem applyCounts_frame (v : Nat) : ∀ (cs : List Int) (m m2 : Mem),
    applyCounts cs v m = some m2 → ∀ w, w ≠ v → viewCount w m2 = viewCount w m := by
  intro cs
  induction cs with
  | nil =>
    intro m m2 happ w _
    simp only [applyCounts, Option.some.injEq] at happ
    subst happ
    rfl
  | cons c cs ih =>
    intro m m2 happ w hw
    simp only [applyCounts] at happ
    cases hq : setCount v c m with
    | none => rw [hq] at happ; cases happ
    | some m1 =>
      rw [hq] at happ
      rw [ih m1 m2 happ w hw]
      simp only [setCount] at hq
      split at hq
      · cases hq
      · cases hq
        simp only [viewCount, List.getElem?_set_ne (Ne.symm hw)]

/-- C7: two accumulators obtained from the factory of one Aggregation are
independent. Distribution: let `v1` come from an invocation in any memory
where the aggregation's bounds are a well-formed slice, and let the factory be
invoked again in any later memory (nothing freed, the aggregation and `v1`
still holding their slices, anything else allocated or written in between);
the second invocation runs and returns an accumulator `v2` other than `v1`,
and no sequence of writes to `v1` (its bucket counters, its scalar fields and,
where the accumulator holds a copy, its bounds) changes what `v2` reads or the
aggregation's stored bounds, nor the other way round. This holds under either
seeding the spec allows; under `reference` the bounds are an immutable
reference and the accumulator has no write to them. Count: the two
accumulators are distinct and no sequence of writes to the counter of one
changes what the other reads. -/
theorem accumulators_independent (mode : Seeding) (k : Mem) (a : Nat) (s : Slice)
    (hb : AggregationDistribution.boundsField a k = some s) (hv : s.Valid k)
    (v1 : Nat) (k1 : Mem)
    (h1 : AggregationDistribution.aggregationValueConstructorAs mode a k = some (v1, k1))
    (k2 : Mem) (hb2 : AggregationDistribution.boundsField a k2 = some s)
    (hheld : heldSlices v1 k2 = heldSlices v1 k1)
    (hfl : k1.floats.length ≤ k2.floats.length) (hil : k1.ints.length ≤ k2.ints.length) :
    (∃ v2 k3, AggregationDistribution.aggregationValueConstructorAs mode a k2 = some (v2, k3)
      ∧ v1 ≠ v2
      ∧ (∀ (ws : List Write) (k4 : Mem), (∀ w ∈ ws, w.allowed mode = true) →
          applyWrites ws v1 k3 = some k4 →
          viewDist v2 k4 = viewDist v2 k3 ∧ storedBounds a k4 = storedBounds a k3)
      ∧ (∀ (ws : List Write) (k4 : Mem), (∀ w ∈ ws, w.allowed mode = true) →
          applyWrites ws v2 k3 = some k4 →
          viewDist v1 k4 = viewDist v1 k3 ∧ storedBounds a k4 = storedBounds a k3))
    ∧ (∀ (c : AggregationCount) (j j1 j2 : Mem) (w1 : Nat),
        c.aggregationValueConstructor j = some (w1, j1) →
        j1.countVals.length ≤ j2.countVals.length →
        ∃ w2 j3, c.aggregationValueConstructor j2 = some (w2, j3)
          ∧ w1 ≠ w2
          ∧ (∀ (cs : List Int) (j4 : Mem), applyCounts cs w1 j3 = some j4 →
              viewCount w2 j4 = viewCount w2 j3)
          ∧ (∀ (cs : List Int) (j4 : Mem), applyCounts cs w2 j3 = some j4 →
              viewCount w1 j4 = viewCount w1 j3)) := by
  refine ⟨?_, ?_⟩
  · -- the first invocation
    obtain ⟨k1', hdr1, fs1, hf1, -, -, hi1, hd1, hfs1, href1, hcopy1⟩ :=
      factoryAs_structure mode a s k hb
    rw [hf1] at h1
    obtain ⟨rfl, rfl⟩ := Prod.mk.inj (Option.some.inj h1)
    have hheld1 : heldSlices k.distVals.length k1' = some (k.ints.length, hdr1) := by
      rw [heldSlices_of _ _ _ (by rw [hd1]; exact List.getElem?_concat_length _ _)]
    rw [hheld1] at hheld
    obtain ⟨d1, hd1k2, hc1, hh1⟩ := heldSlices_some _ _ _ _ hheld
    have hv1lt := lt_of_getElem?_some _ _ _ hd1k2
    have hilen : k1'.ints.length = k.ints.length + 1 := by simp [hi1]
    -- the second invocation
    obtain ⟨k3, hdr2, fs2, hf2, hdists3, -, hi3, hd3, hfs3, href2, hcopy2⟩ :=
      factoryAs_structure mode a s k2 hb2
    have hd1k3 : k3.distVals[k.distVals.length]? = some d1 := by
      rw [hd3]; exact getElem?_append_some _ _ _ _ hd1k2
    have hd2k3 : k3.distVals[k2.distVals.length]?
        = some ⟨k2.ints.length, hdr2, 0, float64.zero, float64.posInf, float64.negInf⟩ := by
      rw [hd3]; exact List.getElem?_concat_length _ _
    have hheld1k3 : heldSlices k.distVals.length k3 = some (k.ints.length, hdr1) := by
      rw [heldSlices_of _ _ _ hd1k3, hc1, hh1]
    have hheld2k3 : heldSlices k2.distVals.length k3 = some (k2.ints.length, hdr2) :=
      heldSlices_of _ _ _ hd2k3
    have hb3 : AggregationDistribution.boundsField a k3 = some s := by
      simp only [AggregationDistribution.boundsField, hdists3] at hb2 ⊢
      exact hb2
    have hne : k.distVals.length ≠ k2.distVals.length := by omega
    refine ⟨k2.distVals.length, k3, hf2, hne, ?_, ?_⟩
    · intro ws k4 hall happ
      cases mode with
      | reference =>
        have hfr := applyWrites_frame k.distVals.length k.ints.length hdr1 none ws k3 k4
          hheld1k3 (fun w hw hbw => by
            have := hall w hw
            simp only [Write.allowed, hbw] at this
            cases this) happ
        exact ⟨viewDist_sameExcept hfr _ _ (Ne.symm hne) hd2k3 (by simp only; omega)
            (by simp),
          storedBounds_sameExcept hfr a s hb3 (Or.inr (by simp))⟩
      | copy =>
        obtain ⟨rfl, X, rfl, -⟩ := hcopy1 rfl
        obtain ⟨rfl, -⟩ := hcopy2 rfl
        have hflen : k1'.floats.length = k.floats.length + 1 := by simp [hfs1]
        have hfr := applyWrites_frame k.distVals.length k.ints.length
          ⟨k.floats.length, 0, s.len, s.len⟩ (some k.floats.length) ws k3 k4
          hheld1k3 (fun _ _ _ => rfl) happ
        refine ⟨viewDist_sameExcept hfr _ _ (Ne.symm hne) hd2k3 (by simp only; omega)
            (by simp only [ne_eq, Option.some.injEq]; omega),
          storedBounds_sameExcept hfr a s hb3 ?_⟩
        rcases Nat.eq_zero_or_pos s.len with h0 | hpos
        · exact Or.inl h0
        · have := Slice.arr_lt_of_valid s k hv hpos
          exact Or.inr (by simp only [ne_eq, Option.some.injEq]; omega)
    · intro ws k4 hall happ
      cases mode with
      | reference =>
        have hfr := applyWrites_frame k2.distVals.length k2.ints.length hdr2 none ws k3 k4
          hheld2k3 (fun w hw hbw => by
            have := hall w hw
            simp only [Write.allowed, hbw] at this
            cases this) happ
        exact ⟨viewDist_sameExcept hfr _ _ hne hd1k3 (by rw [hc1]; omega) (by simp),
          storedBounds_sameExcept hfr a s hb3 (Or.inr (by simp))⟩
      | copy =>
        obtain ⟨rfl, X, rfl, -⟩ := hcopy1 rfl
        obtain ⟨rfl, -⟩ := hcopy2 rfl
        have hflen : k1'.floats.length = k.floats.length + 1 := by simp [hfs1]
        have hfr := applyWrites_frame k2.distVals.length k2.ints.length
          ⟨k2.floats.length, 0, s.len, s.len⟩ (some k2.floats.length) ws k3 k4
          hheld2k3 (fun _ _ _ => rfl) happ
        refine ⟨viewDist_sameExcept hfr _ _ hne hd1k3 (by rw [hc1]; omega)
            (by rw [hh1]; simp only [ne_eq, Option.some.injEq]; omega),
          storedBounds_sameExcept hfr a s hb3 ?_⟩
        rcases Nat.eq_zero_or_pos s.len with h0 | hpos
        · exact Or.inl h0
        · have := Slice.arr_lt_of_valid s k hv hpos
          exact Or.inr (by simp only [ne_eq, Option.some.injEq]; omega)
  · intro c j j1 j2 w1 hc hlen
    simp only [AggregationCount.aggregationValueConstructor, newAggregationCountValue,
      Option.some.injEq, Prod.mk.injEq] at hc
    obtain ⟨rfl, rfl⟩ := hc
    simp only [List.length_append, List.length_singleton] at hlen
    have hne : j.countVals.length ≠ j2.countVals.length := by omega
    refine ⟨j2.countVals.length, _, rfl, hne, ?_, ?_⟩
    · intro cs j4 happ
      exact applyCounts_frame _ cs _ j4 happ _ (Ne.symm hne)
    · intro cs j4 happ
      exact applyCounts_frame _ cs _ j4 happ _ hne

section BucketLemmas

variable {α : Type} [LinearOrder α]

theorem ltBound_iff (x : α) (bounds : List α) (k : Nat) :
    ltBound x bounds k ↔ ∃ h : k < bounds.length, x < bounds[k] := by
  unfold ltBound
  by_cases h : k < bounds.length
  · simp [List.getElem?_eq_getElem h, h]
  · simp [List.getElem?_eq_none (Nat.le_of_not_lt h), h]

theorem geBound_iff (x : α) (bounds : List α) (k : Nat) :
    geBound x bounds k ↔ ∃ h : k < bounds.length, bounds[k] ≤ x := by
  unfold geBound
  by_cases h : k < bounds.length
  · simp [List.getElem?_eq_getElem h, h]
  · simp [List.getElem?_eq_none (Nat.le_of_not_lt h), h]

/-- A bound is either above a value or at most it. -/
theorem ltBound_or_geBound (x : α) (bounds : List α) (k : Nat) (h : k < bounds.length) :
    ltBound x bounds k ∨ geBound x bounds k := by
  rw [ltBound_iff, geBound_iff]
  rcases lt_or_le x bounds[k] with hlt | hle
  · exact Or.inl ⟨h, hlt⟩
  · exact Or.inr ⟨h, hle⟩

/-- In a non-decreasing sequence no value is below a bound and at or above a
later one. -/
theorem ltBound_geBound_absurd (x : α) (bounds : List α) (hs : bounds.Sorted (· ≤ ·))
    (i k : Nat) (hik : i ≤ k) (hlt : ltBound x bounds i) (hge : geBound x bounds k) : False := by
  obtain ⟨hi, hx⟩ := (ltBound_iff x bounds i).mp hlt
  obtain ⟨hk, hy⟩ := (geBound_iff x bounds k).mp hge
  have hle : bounds[i] ≤ bounds[k] := by
    rcases Nat.eq_or_lt_of_le hik with rfl | hlt2
    · exact le_rfl
    · exact (List.pairwise_iff_getElem.mp hs) i k hi hk hlt2
  exact absurd (lt_of_lt_of_le hx (le_trans hle hy)) (lt_irrefl x)

theorem inBucketGe2_le (bounds : List α) (i : Nat) (x : α) (h : inBucketGe2 bounds i x) :
    i ≤ bounds.length := by
  unfold inBucketGe2 at h
  split_ifs at h <;> omega

theorem inBucketGe2_upper (bounds : List α) (i : Nat) (x : α) (h : inBucketGe2 bounds i x)
    (hi : i < bounds.length) : ltBound x bounds i := by
  unfold inBucketGe2 at h
  split_ifs at h with h0
  · exact h
  · exact h.2

theorem inBucketGe2_lower (bounds : List α) (i : Nat) (x : α) (h : inBucketGe2 bounds i x)
    (hi : 0 < i) : geBound x bounds (i - 1) := by
  unfold inBucketGe2 at h
  split_ifs at h with h0 h1 h2
  · omega
  · exact h.1
  · exact h

/-- Every value lies in some bucket of a non-empty bounds sequence. -/
theorem inBucketGe2_exists (bounds : List α) (hne : 0 < bounds.length) (x : α) :
    ∃ i, inBucketGe2 bounds i x := by
  by_cases hex : ∃ j, ltBound x bounds j
  · have hP := Nat.find_spec hex
    have hlen : Nat.find hex < bounds.length := ((ltBound_iff _ _ _).mp hP).1
    refine ⟨Nat.find hex, ?_⟩
    unfold inBucketGe2
    by_cases h0 : Nat.find hex = 0
    · rw [if_pos h0]; exact hP
    · rw [if_neg h0, if_pos hlen]
      refine ⟨?_, hP⟩
      have hmin : ¬ ltBound x bounds (Nat.find hex - 1) := Nat.find_min hex (by omega)
      rcases ltBound_or_geBound x bounds (Nat.find hex - 1) (by omega) with h | h
      · exact absurd h hmin
      · exact h
  · refine ⟨bounds.length, ?_⟩
    unfold inBucketGe2
    rw [if_neg (by omega), if_neg (by omega), if_pos rfl]
    rcases ltBound_or_geBound x bounds (bounds.length - 1) (by omega) with h | h
    · exact absurd ⟨_, h⟩ hex
    · exact h

/-- In a non-decreasing bounds sequence no value lies in two buckets. -/
theorem inBucketGe2_unique (bounds : List α) (hs : bounds.Sorted (· ≤ ·)) (x : α)
    (i j : Nat) (hi : inBucketGe2 bounds i x) (hj : inBucketGe2 bounds j x) : i = j := by
  by_contra hne
  rcases Nat.lt_or_gt_of_ne hne with hlt | hgt
  · have hjl := inBucketGe2_le bounds j x hj
    exact ltBound_geBound_absurd x bounds hs i (j - 1) (by omega)
      (inBucketGe2_upper bounds i x hi (by omega)) (inBucketGe2_lower bounds j x hj (by omega))
  · have hil := inBucketGe2_le bounds i x hi
    exact ltBound_geBound_absurd x bounds hs j (i - 1) (by omega)
      (inBucketGe2_upper bounds j x hj (by omega)) (inBucketGe2_lower bounds i x hi (by omega))

/-- C5: for a non-decreasing bounds sequence of length at least 2, the
documented buckets (`[-inf, bounds[0])`, `[bounds[i-1], bounds[i])` for
`0 < i < len`, `[bounds[len-1], +inf)`) are `len(bounds)+1` in number and every
value lies in exactly one of them. -/
theorem bucket_partition (bounds : List α) (hs : bounds.Sorted (· ≤ ·))
    (h2 : 2 ≤ bounds.length) (x : α) :
    numBuckets bounds = bounds.length + 1
      ∧ (∃! i, i < numBuckets bounds ∧ inBucket bounds i x)
      ∧ (∀ i, inBucket bounds i x ↔ inBucketGe2 bounds i x)
      ∧ (∀ i, inBucketGe2 bounds i x → i < numBuckets bounds) := by
  have hrule : ∀ i, inBucket bounds i x ↔ inBucketGe2 bounds i x := by
    intro i
    match bounds, h2 with
    | _ :: _ :: _, _ => exact Iff.rfl
  have hnum : ∀ i, inBucketGe2 bounds i x → i < numBuckets bounds := by
    intro i hi
    have := inBucketGe2_le bounds i x hi
    unfold numBuckets
    omega
  refine ⟨rfl, ?_, hrule, hnum⟩
  obtain ⟨i, hi⟩ := inBucketGe2_exists bounds (by omega) x
  refine ⟨i, ⟨hnum i hi, (hrule i).mpr hi⟩, ?_⟩
  rintro j ⟨-, hj⟩
  exact inBucketGe2_unique bounds hs x j i ((hrule j).mp hj) hi

/-- C6: with no bounds there is one bucket and it holds every value; with
one bound `b` there are two, the values below `b` and the values at or above
`b`, none of finite width; both counts are `len(bounds)+1`, and the rule for
one bound is what the rule for `len(bounds) >= 2` gives at length 1. -/
theorem bucket_degenerate (b x : α) :
    numBuckets ([] : List α) = 1
      ∧ inBucket ([] : List α) 0 x
      ∧ (∀ i, inBucket ([] : List α) i x ↔ i = 0)
      ∧ numBuckets [b] = 2
      ∧ (inBucket [b] 0 x ↔ x < b)
      ∧ (inBucket [b] 1 x ↔ b ≤ x)
      ∧ (∀ i, inBucket [b] i x → i = 0 ∨ i = 1)
      ∧ (∃! i, i < numBuckets [b] ∧ inBucket [b] i x)
      ∧ finiteBuckets [b] = []
      ∧ finiteBuckets ([] : List α) = []
      ∧ numBuckets ([] : List α) = ([] : List α).length + 1
      ∧ numBuckets [b] = [b].length + 1
      ∧ (∀ i, inBucket [b] i x ↔ inBucketGe2 [b] i x) := by
  have h0 : inBucket [b] 0 x ↔ x < b := by simp [inBucket]
  have h1 : inBucket [b] 1 x ↔ b ≤ x := by simp [inBucket]
  have hi : ∀ i, inBucket [b] i x → i = 0 ∨ i = 1 := by
    intro i h
    rcases h with h | h
    · exact Or.inl h.1
    · exact Or.inr h.1
  refine ⟨rfl, rfl, fun i => Iff.rfl, rfl, h0, h1, hi, ?_, ?_, ?_, rfl, rfl, ?_⟩
  · rcases lt_or_le x b with hlt | hle
    · refine ⟨0, ⟨by simp [numBuckets], h0.mpr hlt⟩, ?_⟩
      rintro j ⟨-, hj⟩
      rcases hj with hj | hj
      · exact hj.1
      · exact absurd hlt (not_lt.mpr hj.2)
    · refine ⟨1, ⟨by simp [numBuckets], h1.mpr hle⟩, ?_⟩
      rintro j ⟨-, hj⟩
      rcases hj with hj | hj
      · exact absurd hj.2 (not_lt.mpr hle)
      · exact hj.1
  · simp [finiteBuckets, numBuckets, List.range_succ, List.filter]
  · simp [finiteBuckets, numBuckets, List.range_succ, List.filter]
  · intro i
    unfold inBucket inBucketGe2
    rcases Nat.lt_trichotomy i 1 with hlt | heq | hgt
    · have : i = 0 := by omega
      subst this
      simp [ltBound]
    · subst heq
      simp [geBound]
    · have e0 : i ≠ 0 := by omega
      have e1 : i ≠ 1 := by omega
      simp [e0, e1]

end BucketLemmas

/-! ## Instances at concrete inputs -/

/-- C1 at two inputs: the unsorted slice `[3.0, 1.0, 1.0]` with a duplicate,
and the nil slice. -/
theorem NewAggregationDistribution_stores_bounds_witness :
    (demoBounds.Valid demoMem
      ∧ ∃ s, AggregationDistribution.boundsField (NewAggregationDistribution demoBounds demoMem).1
            (NewAggregationDistribution demoBounds demoMem).2 = some s
        ∧ s.len = 3
        ∧ (∀ i, s.index i (NewAggregationDistribution demoBounds demoMem).2
            = demoBounds.index i demoMem)
        ∧ s.elems (NewAggregationDistribution demoBounds demoMem).2
            = [float64.three, float64.one, float64.one]
        ∧ [float64.three, float64.one, float64.one].length = 3)
    ∧ (nilSlice.Valid emptyMem
      ∧ ∃ s, AggregationDistribution.boundsField (NewAggregationDistribution nilSlice emptyMem).1
            (NewAggregationDistribution nilSlice emptyMem).2 = some s
        ∧ s.len = 0
        ∧ (∀ i, s.index i (NewAggregationDistribution nilSlice emptyMem).2
            = nilSlice.index i emptyMem)
        ∧ s.elems (NewAggregationDistribution nilSlice emptyMem).2 = []
        ∧ ([] : List float64).length = 0) :=
  ⟨⟨by decide, NewAggregationDistribution_stores_bounds demoMem demoBounds (by decide)⟩,
    ⟨by decide, NewAggregationDistribution_stores_bounds emptyMem nilSlice (by decide)⟩⟩

/-- C2 at `b = [3.0, 1.0, 1.0]`: after the caller writes `b[1] = 2.0` the
caller reads `[3.0, 2.0, 1.0]` and the aggregation still holds
`[3.0, 1.0, 1.0]`. -/
theorem NewAggregationDistribution_copy_isolated_witness :
    demoBounds.Valid demoMem ∧ 1 < demoBounds.len
      ∧ ∃ s m2, AggregationDistribution.boundsField (NewAggregationDistribution demoBounds demoMem).1
          (NewAggregationDistribution demoBounds demoMem).2 = some s
      ∧ s.arr ≠ 0
      ∧ demoBounds.store 1 float64.two (NewAggregationDistribution demoBounds demoMem).2 = some m2
      ∧ demoBounds.elems m2 = [float64.three, float64.two, float64.one]
      ∧ storedBounds (NewAggregationDistribution demoBounds demoMem).1
          (NewAggregationDistribution demoBounds demoMem).2
          = some [float64.three, float64.one, float64.one]
      ∧ storedBounds (NewAggregationDistribution demoBounds demoMem).1 m2
          = some [float64.three, float64.one, float64.one] :=
  ⟨by decide, by decide,
    NewAggregationDistribution_copy_isolated demoMem demoBounds 1 float64.two (by decide)
      (by decide)⟩

/-- C8 at the aggregation built from `[1.0, 2.0]`, for three invocations. -/
theorem factory_preserves_aggregation_witness :
    cexAgg.1 < cexAgg.2.dists.length
      ∧ ∃ vs m2 s bs, invocations (AggregationDistribution.aggregationValueConstructor cexAgg.1)
            3 cexAgg.2 = some (vs, m2)
        ∧ vs.length = 3
        ∧ AggregationDistribution.boundsField cexAgg.1 cexAgg.2 = some s
        ∧ AggregationDistribution.boundsField cexAgg.1 m2 = some s
        ∧ storedBounds cexAgg.1 cexAgg.2 = some bs
        ∧ storedBounds cexAgg.1 m2 = some bs :=
  ⟨by decide, factory_preserves_aggregation cexAgg.1 cexAgg.2 (by decide) 3⟩

/-- C5 at the real bounds `[1, 2, 2, 5]` and the value 2. -/
theorem bucket_partition_witness :
    List.Sorted (· ≤ ·) [(1 : ℝ), 2, 2, 5] ∧ 2 ≤ [(1 : ℝ), 2, 2, 5].length
      ∧ numBuckets [(1 : ℝ), 2, 2, 5] = [(1 : ℝ), 2, 2, 5].length + 1
      ∧ (∃! i, i < numBuckets [(1 : ℝ), 2, 2, 5] ∧ inBucket [(1 : ℝ), 2, 2, 5] i 2)
      ∧ (∀ i, inBucket [(1 : ℝ), 2, 2, 5] i 2 ↔ inBucketGe2 [(1 : ℝ), 2, 2, 5] i 2)
      ∧ (∀ i, inBucketGe2 [(1 : ℝ), 2, 2, 5] i 2 → i < numBuckets [(1 : ℝ), 2, 2, 5]) :=
  ⟨by simp [List.Sorted]; norm_num, by simp,
    bucket_partition [(1 : ℝ), 2, 2, 5] (by simp [List.Sorted]; norm_num) (by simp) 2⟩

/-- C4 at the three documented inputs, each in a later memory where more has
been allocated or written: 4 buckets for `[1.0, 2.0, 3.0]` (after a write by
the caller and the construction of a second aggregation), 2 buckets for
`[0.0]`, 1 bucket for `[]`. -/
theorem distribution_factory_buckets_witness :
    (threeBounds.Valid threeMem
      ∧ AggregationDistribution.boundsField (NewAggregationDistribution threeBounds threeMem).1 laterThree
        = AggregationDistribution.boundsField (NewAggregationDistribution threeBounds threeMem).1
            (NewAggregationDistribution threeBounds threeMem).2
      ∧ storedBounds (NewAggregationDistribution threeBounds threeMem).1 laterThree
        = storedBounds (NewAggregationDistribution threeBounds threeMem).1
            (NewAggregationDistribution threeBounds threeMem).2
      ∧ (
    (∃ v k1 d, AggregationDistribution.aggregationValueConstructorAs Seeding.copy
          (NewAggregationDistribution threeBounds threeMem).1 laterThree = some (v, k1)
      ∧ viewDist v k1 = some d ∧ d.bounds = [float64.one, float64.two, float64.three]
      ∧ d.buckets.length = 4
      ∧ d.buckets = List.replicate 4 0)
    ∧ AggregationDistribution.aggregationValueConstructorAs Seeding.reference
          (NewAggregationDistribution threeBounds threeMem).1 laterThree
        = AggregationDistribution.aggregationValueConstructor
          (NewAggregationDistribution threeBounds threeMem).1 laterThree
    ∧ (∃ vs k2, invocations (AggregationDistribution.aggregationValueConstructor
          (NewAggregationDistribution threeBounds threeMem).1) 2 laterThree = some (vs, k2)
      ∧ vs.length = 2
      ∧ ∀ v ∈ vs, ∃ d, viewDist v k2 = some d ∧ d.bounds = [float64.one, float64.two, float64.three]
          ∧ d.buckets.length = 4
          ∧ d.buckets = List.replicate 4 0)))
    ∧
    (zeroBounds.Valid zeroMem
      ∧ AggregationDistribution.boundsField (NewAggregationDistribution zeroBounds zeroMem).1 laterZero
        = AggregationDistribution.boundsField (NewAggregationDistribution zeroBounds zeroMem).1
            (NewAggregationDistribution zeroBounds zeroMem).2
      ∧ storedBounds (NewAggregationDistribution zeroBounds zeroMem).1 laterZero
        = storedBounds (NewAggregationDistribution zeroBounds zeroMem).1
            (NewAggregationDistribution zeroBounds zeroMem).2
      ∧ (
    (∃ v k1 d, AggregationDistribution.aggregationValueConstructorAs Seeding.reference
          (NewAggregationDistribution zeroBounds zeroMem).1 laterZero = some (v, k1)
      ∧ viewDist v k1 = some d ∧ d.bounds = [float64.zero]
      ∧ d.buckets.length = 2
      ∧ d.buckets = List.replicate 2 0)
    ∧ AggregationDistribution.aggregationValueConstructorAs Seeding.reference
          (NewAggregationDistribution zeroBounds zeroMem).1 laterZero
        = AggregationDistribution.aggregationValueConstructor
          (NewAggregationDistribution zeroBounds zeroMem).1 laterZero
    ∧ (∃ vs k2, invocations (AggregationDistribution.aggregationValueConstructor
          (NewAggregationDistribution zeroBounds zeroMem).1) 2 laterZero = some (vs, k2)
      ∧ vs.length = 2
      ∧ ∀ v ∈ vs, ∃ d, viewDist v k2 = some d ∧ d.bounds = [float64.zero]
          ∧ d.buckets.length = 2
          ∧ d.buckets = List.replicate 2 0)))
    ∧
    (nilSlice.Valid emptyMem
      ∧ AggregationDistribution.boundsField (NewAggregationDistribution nilSlice emptyMem).1 laterNil
        = AggregationDistribution.boundsField (NewAggregationDistribution nilSlice emptyMem).1
            (NewAggregationDistribution nilSlice emptyMem).2
      ∧ storedBounds (NewAggregationDistribution nilSlice emptyMem).1 laterNil
        = storedBounds (NewAggregationDistribution nilSlice emptyMem).1
            (NewAggregationDistribution nilSlice emptyMem).2
      ∧ (
    (∃ v k1 d, AggregationDistribution.aggregationValueConstructorAs Seeding.copy
          (NewAggregationDistribution nilSlice emptyMem).1 laterNil = some (v, k1)
      ∧ viewDist v k1 = some d ∧ d.bounds = []
      ∧ d.buckets.length = 1
      ∧ d.buckets = List.replicate 1 0)
    ∧ AggregationDistribution.aggregationValueConstructorAs Seeding.reference
          (NewAggregationDistribution nilSlice emptyMem).1 laterNil
        = AggregationDistribution.aggregationValueConstructor
          (NewAggregationDistribution nilSlice emptyMem).1 laterNil
    ∧ (∃ vs k2, invocations (AggregationDistribution.aggregationValueConstructor
          (NewAggregationDistribution nilSlice emptyMem).1) 2 laterNil = some (vs, k2)
      ∧ vs.length = 2
      ∧ ∀ v ∈ vs, ∃ d, viewDist v k2 = some d ∧ d.bounds = []
          ∧ d.buckets.length = 1
          ∧ d.buckets = List.replicate 1 0))) :=
  ⟨⟨by decide, by decide, by decide,
      distribution_factory_buckets Seeding.copy threeMem threeBounds (by decide) laterThree (by decide) (by decide) 2⟩,
    ⟨by decide, by decide, by decide,
      distribution_factory_buckets Seeding.reference zeroMem zeroBounds (by decide) laterZero (by decide) (by decide) 2⟩,
    ⟨by decide, by decide, by decide,
      distribution_factory_buckets Seeding.copy emptyMem nilSlice (by decide) laterNil (by decide) (by decide) 2⟩⟩

/-- C7 at the aggregation built from `[1.0, 2.0]`, under each seeding: a first
accumulator, then a second aggregation and a write in between, then a second
accumulator; and two sequences of writes that run and change the accumulator
written to, and nothing else. -/
theorem accumulators_independent_witness :
    (AggregationDistribution.boundsField cexAgg.1 cexAgg.2 = some cexHeader
      ∧ cexHeader.Valid cexAgg.2
      ∧ AggregationDistribution.aggregationValueConstructorAs Seeding.copy cexAgg.1 cexAgg.2
          = some ((firstAcc Seeding.copy).1, (firstAcc Seeding.copy).2)
      ∧ AggregationDistribution.boundsField cexAgg.1 (laterAcc Seeding.copy) = some cexHeader
      ∧ heldSlices (firstAcc Seeding.copy).1 (laterAcc Seeding.copy)
          = heldSlices (firstAcc Seeding.copy).1 (firstAcc Seeding.copy).2
      ∧ (firstAcc Seeding.copy).2.floats.length ≤ (laterAcc Seeding.copy).floats.length
      ∧ (firstAcc Seeding.copy).2.ints.length ≤ (laterAcc Seeding.copy).ints.length
      ∧ (
    (∃ v2 k3, AggregationDistribution.aggregationValueConstructorAs Seeding.copy cexAgg.1 (laterAcc Seeding.copy) = some (v2, k3)
      ∧ (firstAcc Seeding.copy).1 ≠ v2
      ∧ (∀ (ws : List Write) (k4 : Mem), (∀ w ∈ ws, w.allowed Seeding.copy = true) →
          applyWrites ws (firstAcc Seeding.copy).1 k3 = some k4 →
          viewDist v2 k4 = viewDist v2 k3 ∧ storedBounds cexAgg.1 k4 = storedBounds cexAgg.1 k3)
      ∧ (∀ (ws : List Write) (k4 : Mem), (∀ w ∈ ws, w.allowed Seeding.copy = true) →
          applyWrites ws v2 k3 = some k4 →
          viewDist (firstAcc Seeding.copy).1 k4 = viewDist (firstAcc Seeding.copy).1 k3 ∧ storedBounds cexAgg.1 k4 = storedBounds cexAgg.1 k3))
    ∧ (∀ (c : AggregationCount) (j j1 j2 : Mem) (w1 : Nat),
        c.aggregationValueConstructor j = some (w1, j1) →
        j1.countVals.length ≤ j2.countVals.length →
        ∃ w2 j3, c.aggregationValueConstructor j2 = some (w2, j3)
          ∧ w1 ≠ w2
          ∧ (∀ (cs : List Int) (j4 : Mem), applyCounts cs w1 j3 = some j4 →
              viewCount w2 j4 = viewCount w2 j3)
          ∧ (∀ (cs : List Int) (j4 : Mem), applyCounts cs w2 j3 = some j4 →
              viewCount w1 j4 = viewCount w1 j3))))
    ∧
    (AggregationDistribution.boundsField cexAgg.1 cexAgg.2 = some cexHeader
      ∧ cexHeader.Valid cexAgg.2
      ∧ AggregationDistribution.aggregationValueConstructorAs Seeding.reference cexAgg.1 cexAgg.2
          = some ((firstAcc Seeding.reference).1, (firstAcc Seeding.reference).2)
      ∧ AggregationDistribution.boundsField cexAgg.1 (laterAcc Seeding.reference) = some cexHeader
      ∧ heldSlices (firstAcc Seeding.reference).1 (laterAcc Seeding.reference)
          = heldSlices (firstAcc Seeding.reference).1 (firstAcc Seeding.reference).2
      ∧ (firstAcc Seeding.reference).2.floats.length ≤ (laterAcc Seeding.reference).floats.length
      ∧ (firstAcc Seeding.reference).2.ints.length ≤ (laterAcc Seeding.reference).ints.length
      ∧ (
    (∃ v2 k3, AggregationDistribution.aggregationValueConstructorAs Seeding.reference cexAgg.1 (laterAcc Seeding.reference) = some (v2, k3)
      ∧ (firstAcc Seeding.reference).1 ≠ v2
      ∧ (∀ (ws : List Write) (k4 : Mem), (∀ w ∈ ws, w.allowed Seeding.reference = true) →
          applyWrites ws (firstAcc Seeding.reference).1 k3 = some k4 →
          viewDist v2 k4 = viewDist v2 k3 ∧ storedBounds cexAgg.1 k4 = storedBounds cexAgg.1 k3)
      ∧ (∀ (ws : List Write) (k4 : Mem), (∀ w ∈ ws, w.allowed Seeding.reference = true) →
          applyWrites ws v2 k3 = some k4 →
          viewDist (firstAcc Seeding.reference).1 k4 = viewDist (firstAcc Seeding.reference).1 k3 ∧ storedBounds cexAgg.1 k4 = storedBounds cexAgg.1 k3))
    ∧ (∀ (c : AggregationCount) (j j1 j2 : Mem) (w1 : Nat),
        c.aggregationValueConstructor j = some (w1, j1) →
        j1.countVals.length ≤ j2.countVals.length →
        ∃ w2 j3, c.aggregationValueConstructor j2 = some (w2, j3)
          ∧ w1 ≠ w2
          ∧ (∀ (cs : List Int) (j4 : Mem), applyCounts cs w1 j3 = some j4 →
              viewCount w2 j4 = viewCount w2 j3)
          ∧ (∀ (cs : List Int) (j4 : Mem), applyCounts cs w2 j3 = some j4 →
              viewCount w1 j4 = viewCount w1 j3))))
    ∧ (∃ k3 k4, AggregationDistribution.aggregationValueConstructorAs Seeding.copy cexAgg.1
          (laterAcc Seeding.copy) = some (1, k3)
      ∧ applyWrites someBoundWrites 0 k3 = some k4
      ∧ (viewDist 0 k3).map DistView.bounds = some [float64.one, float64.two]
      ∧ (viewDist 0 k4).map DistView.bounds = some [float64.three, float64.two]
      ∧ (viewDist 0 k4).map DistView.buckets = some [7, 5, 0]
      ∧ viewDist 1 k4 = viewDist 1 k3
      ∧ storedBounds cexAgg.1 k4 = some [float64.one, float64.two])
    ∧ (∃ k3 k4, AggregationDistribution.aggregationValueConstructorAs Seeding.reference cexAgg.1
          (laterAcc Seeding.reference) = some (1, k3)
      ∧ applyWrites someWrites 1 k3 = some k4
      ∧ (viewDist 1 k4).map DistView.buckets = some [0, 5, 0]
      ∧ (viewDist 1 k4).map DistView.count = some 3
      ∧ viewDist 0 k4 = viewDist 0 k3
      ∧ storedBounds cexAgg.1 k4 = some [float64.one, float64.two]) :=
  ⟨⟨by decide, by decide, by decide, by decide, by decide, by decide, by decide,
      accumulators_independent Seeding.copy cexAgg.2 cexAgg.1 cexHeader (by decide) (by decide)
        (firstAcc Seeding.copy).1 (firstAcc Seeding.copy).2 (by decide) (laterAcc Seeding.copy) (by decide)
        (by decide) (by decide) (by decide)⟩,
    ⟨by decide, by decide, by decide, by decide, by decide, by decide, by decide,
      accumulators_independent Seeding.reference cexAgg.2 cexAgg.1 cexHeader (by decide) (by decide)
        (firstAcc Seeding.reference).1 (firstAcc Seeding.reference).2 (by decide) (laterAcc Seeding.reference) (by decide)
        (by decide) (by decide) (by decide)⟩,
    ⟨_, _, rfl, rfl, by decide, by decide, by decide, by decide, by decide⟩,
    ⟨_, _, rfl, rfl, by decide, by decide, by decide, by decide⟩⟩

/-- C10 at two aggregations that store `[3.0]` in unrelated memories: one
built second, from a slice the caller wrote to before, the other built first
from a slice with spare capacity. -/
theorem factory_deterministic_witness :
    AggregationDistribution.boundsField 1 laterThree = some ⟨2, 0, 1, 1⟩
    ∧ AggregationDistribution.boundsField 0 (NewAggregationDistribution detBounds3 demoMem).2
        = some ⟨1, 0, 1, 1⟩
    ∧ (⟨2, 0, 1, 1⟩ : Slice).Valid laterThree
    ∧ (⟨1, 0, 1, 1⟩ : Slice).Valid (NewAggregationDistribution detBounds3 demoMem).2
    ∧ (⟨2, 0, 1, 1⟩ : Slice).elems laterThree
        = (⟨1, 0, 1, 1⟩ : Slice).elems (NewAggregationDistribution detBounds3 demoMem).2
    ∧ (
    (∃ v1 n1 v2 n2 d,
        AggregationDistribution.aggregationValueConstructorAs Seeding.copy 1 laterThree = some (v1, n1)
      ∧ AggregationDistribution.aggregationValueConstructorAs Seeding.copy 0 (NewAggregationDistribution detBounds3 demoMem).2 = some (v2, n2)
      ∧ (v1, n1) = newAggregationDistributionValueAs Seeding.copy (⟨2, 0, 1, 1⟩ : Slice) laterThree
      ∧ (v2, n2) = newAggregationDistributionValueAs Seeding.copy (⟨1, 0, 1, 1⟩ : Slice) (NewAggregationDistribution detBounds3 demoMem).2
      ∧ viewDist v1 n1 = some d ∧ viewDist v2 n2 = some d
      ∧ d.bounds = (⟨2, 0, 1, 1⟩ : Slice).elems laterThree ∧ d.buckets = List.replicate ((⟨2, 0, 1, 1⟩ : Slice).len + 1) 0)
    ∧ (∀ (m1 m2 : Mem) (b1 b2 : Slice), b1.Valid m1 → b2.Valid m2 →
        b1.elems m1 = b2.elems m2 →
        ∃ t1 t2,
          AggregationDistribution.boundsField (NewAggregationDistribution b1 m1).1
            (NewAggregationDistribution b1 m1).2 = some t1
        ∧ AggregationDistribution.boundsField (NewAggregationDistribution b2 m2).1
            (NewAggregationDistribution b2 m2).2 = some t2
        ∧ t1.Valid (NewAggregationDistribution b1 m1).2
        ∧ t2.Valid (NewAggregationDistribution b2 m2).2
        ∧ t1.elems (NewAggregationDistribution b1 m1).2
            = t2.elems (NewAggregationDistribution b2 m2).2)
    ∧ (∀ (a : Nat) (s : Slice) (j1 j2 : Mem),
        AggregationDistribution.boundsField a j1 = some s →
        AggregationDistribution.boundsField a j2 = some s →
          AggregationDistribution.aggregationValueConstructorAs Seeding.copy a j1
            = some (newAggregationDistributionValueAs Seeding.copy s j1)
        ∧ AggregationDistribution.aggregationValueConstructorAs Seeding.copy a j2
            = some (newAggregationDistributionValueAs Seeding.copy s j2))
    ∧ (∀ (c : AggregationCount) (j1 j2 : Mem), ∃ w1 p1 w2 p2,
        c.aggregationValueConstructor j1 = some (w1, p1)
      ∧ c.aggregationValueConstructor j2 = some (w2, p2)
      ∧ (w1, p1) = newAggregationCountValue 0 j1
      ∧ (w2, p2) = newAggregationCountValue 0 j2
      ∧ viewCount w1 p1 = some 0 ∧ viewCount w2 p2 = some 0)) :=
  ⟨by decide, by decide, by decide, by decide, by decide,
    factory_deterministic Seeding.copy laterThree
      (NewAggregationDistribution detBounds3 demoMem).2 1 0 ⟨2, 0, 1, 1⟩ ⟨1, 0, 1, 1⟩
      (by decide) (by decide) (by decide) (by decide) (by decide)⟩

end stats
